import Mathlib

/-!
Verification of the policy-manager evaluation core.

This file gives a shallow embedding of the policy composition and evaluation
pipeline of the dcm-project/policy-manager repository and proves properties
of it.  The embedding covers:

* the JSON value model (Go `map[string]any` / `[]any` / scalars, as decoded
  from JSON; all numbers are modelled as rationals, standing for the exact
  values of Go `float64` operands in the ranges exercised here);
* the constraint context of `internal/service/constraints.go`
  (`MergeConstraints`, `mergeSchemaKeywords`, `MergeSPConstraints`,
  `ValidateServiceProvider`, `ValidatePatch`, the projection maps);
* the evaluator of `internal/service` (`EvaluateRequest`, `evaluatePolicy`,
  `mergePatch`, `mapsEqual`);
* the request-label extraction of `internal/handlers/engine/converters.go`;
* the decision parser of `internal/opa/evaluation.go`.

Go maps are modelled as association lists with unique keys; iteration order of
a Go map is unspecified, the model fixes it to list order.  The JSON
round-trip deep copies (`deepCopyMap`, `deepCopySchemaMap`) are the identity
on this value model.  The external rule runtime is a parameter (an oracle
returning the parsed decision, or `none` for an undefined result, or an error
for a transport failure), and the external regular-expression engine is a
parameter `re : String → String → Bool`.  The JSON-Schema validator used by
`ValidatePatch` is a third-party library; it is modelled from the spec by the
`accepts` function below, covering the keywords the constraint context
manages (`const`, `enum`, the numeric bounds, `multipleOf`, `pattern`,
`allOf`); keywords outside this set impose no condition, and a
`multipleOf` of zero (an invalid schema, which the real validator refuses to
compile, turning into a validation failure) accepts nothing.
-/

/-- JSON values, the model of Go `any` trees decoded from JSON
(`nil`, `bool`, `float64`, `string`, `[]any`, `map[string]any`). -/
inductive Json where
  | null
  | bool (b : Bool)
  | num (q : ℚ)
  | str (s : String)
  | arr (xs : List Json)
  | obj (kvs : List (String × Json))

/-- A JSON object: the model of a Go `map[string]any`. -/
abbrev JObj := List (String × Json)

/-- Lookup in an association list (a Go map read). -/
def alookup {α : Type} (kvs : List (String × α)) (k : String) : Option α :=
  match kvs with
  | [] => none
  | (k', v) :: rest => if k' = k then some v else alookup rest k

/-- Insert-or-replace in an association list (a Go map write). -/
def ainsert {α : Type} (k : String) (v : α) (kvs : List (String × α)) :
    List (String × α) :=
  match kvs with
  | [] => [(k, v)]
  | (k', v') :: rest => if k' = k then (k, v) :: rest else (k', v') :: ainsert k v rest

/-- Delete from an association list (a Go map `delete`). -/
def aerase {α : Type} (k : String) (kvs : List (String × α)) : List (String × α) :=
  match kvs with
  | [] => []
  | (k', v') :: rest => if k' = k then rest else (k', v') :: aerase k rest

/-- The keys of an association list are pairwise distinct (every decoded Go
map satisfies this). -/
def KeysNodup {α : Type} (kvs : List (String × α)) : Prop :=
  (kvs.map Prod.fst).Nodup

mutual
/-- Structural equality of JSON values (order-dependent). -/
def Json.beq : Json → Json → Bool
  | .null, .null => true
  | .bool a, .bool b => a == b
  | .num a, .num b => a == b
  | .str a, .str b => a == b
  | .arr a, .arr b => Json.beqList a b
  | .obj a, .obj b => Json.beqObj a b
  | _, _ => false
def Json.beqList : List Json → List Json → Bool
  | [], [] => true
  | a :: as, b :: bs => Json.beq a b && Json.beqList as bs
  | _, _ => false
def Json.beqObj : JObj → JObj → Bool
  | [], [] => true
  | (k, v) :: as, (k', v') :: bs => k == k' && Json.beq v v' && Json.beqObj as bs
  | _, _ => false
end

/-- Byte-wise comparison of strings, used to sort object keys the way
`encoding/json` sorts map keys when marshalling. -/
def strLtB : List Char → List Char → Bool
  | [], [] => false
  | [], _ :: _ => true
  | _ :: _, [] => false
  | a :: as, b :: bs =>
    if a.toNat < b.toNat then true
    else if b.toNat < a.toNat then false
    else strLtB as bs

/-- Key order for canonical (marshalled) form of an object. -/
def keyLeB (a b : String) : Bool := !(strLtB b.data a.data)

/-- Insert a key-value pair into a key-sorted association list. -/
def insertSorted (p : String × Json) : JObj → JObj
  | [] => [p]
  | q :: rest => if keyLeB p.1 q.1 then p :: q :: rest else q :: insertSorted p rest

/-- Sort an association list by key (insertion sort), as `encoding/json`
does when marshalling a map. -/
def sortByKey (l : JObj) : JObj :=
  l.foldr insertSorted []

mutual
/-- Canonical form of a JSON value: objects are recursively key-sorted.  Two
values have the same `encoding/json` marshalling iff their canonical forms
are structurally equal. -/
def Json.canon : Json → Json
  | .null => .null
  | .bool b => .bool b
  | .num q => .num q
  | .str s => .str s
  | .arr xs => .arr (Json.canonList xs)
  | .obj kvs => .obj (sortByKey (Json.canonObj kvs))
def Json.canonList : List Json → List Json
  | [] => []
  | x :: xs => Json.canon x :: Json.canonList xs
def Json.canonObj : JObj → JObj
  | [] => []
  | (k, v) :: kvs => (k, Json.canon v) :: Json.canonObj kvs
end

/-- The model of `jsonValuesEqual` (constraints.go): two values are equal iff
their JSON marshallings agree, i.e. iff their canonical forms coincide. -/
def jsonValuesEqual (a b : Json) : Bool := Json.beq a.canon b.canon

/-- The model of `mapsEqual` (evaluation service): equality of the JSON
marshallings of two maps — structural equality, order-independent for
mappings. -/
def mapsEqual (a b : JObj) : Bool := jsonValuesEqual (.obj a) (.obj b)

/-- The model of `intersectAnySlices` (constraints.go): keep the elements of
`a` that occur in `b` (first match wins), preserving the order of `a`. -/
def intersectAnySlices (a b : List Json) : List Json :=
  a.filter (fun av => b.any (fun bv => jsonValuesEqual av bv))

/-- The model of `intersectStringSlices` (constraints.go): keep the elements
of `b` that occur in `a`, preserving the order of `b`. -/
def intersectStringSlices (a b : List String) : List String :=
  b.filter (fun s => a.contains s)

/-- `toFloat64` of constraints.go: the numeric reading of a decoded JSON
value (after a JSON round trip every Go number is a `float64`). -/
def toFloat64 : Json → Option ℚ
  | .num q => some q
  | _ => none

/-- `toSlice` of constraints.go. -/
def toSlice : Json → Option (List Json)
  | .arr xs => some xs
  | _ => none

/-- Exact divisibility of rationals: `ratMulDvd a b` holds iff
`a.num * b.den` is an integer multiple of `a.den * b.num`, i.e. iff `a / b`
is an integer (for `b ≠ 0`).  This is the exact-arithmetic reading of
`math.Mod(a, b) == 0`. -/
def ratMulDvd (a b : ℚ) : Bool :=
  (a.num * (b.den : ℤ)) % ((a.den : ℤ) * b.num) == 0

/-- `ConstraintConflictError` of constraints.go. -/
structure ConstraintConflictError where
  fieldPath : String
  setByPolicy : String
  reason : String

/-- Accumulated service provider constraints (constraints.go). -/
structure AccumulatedSPConstraints where
  allowList : List String
  patterns : List String
  setBy : String

/-- The constraint context of constraints.go. -/
structure ConstraintContext where
  fieldConstraints : List (String × JObj)
  setBy : List (String × String)
  serviceProviderConstraints : Option AccumulatedSPConstraints

/-- `NewConstraintContext` of constraints.go. -/
def NewConstraintContext : ConstraintContext := ⟨[], [], none⟩

/-- The five keywords merged by taking the maximum (Go lists the four
`min...` keywords in one case arm and `exclusiveMinimum` in a separate arm
with the same body). -/
def minKeywords : List String :=
  ["minimum", "minLength", "minItems", "minProperties", "exclusiveMinimum"]

/-- The five keywords merged by taking the minimum. -/
def maxKeywords : List String :=
  ["maximum", "maxLength", "maxItems", "maxProperties", "exclusiveMaximum"]

/-- The merge rule classes of the keyword switch of `mergeSchemaKeywords`
(constraints.go): Go dispatches on the keyword string, with the four
`min...` keywords sharing one case arm, `exclusiveMinimum` a separate arm
with the same body, and likewise for the `max...` keywords; the classifier
reproduces that dispatch. -/
inductive MergeKind where
  | constKw
  | enumKw
  | minKw
  | maxKw
  | patternKw
  | multipleOfKw
  | otherKw
deriving DecidableEq

/-- Which merge rule a keyword falls under. -/
def mergeKind (kw : String) : MergeKind :=
  if kw = "const" then .constKw
  else if kw = "enum" then .enumKw
  else if kw = "minimum" ∨ kw = "minLength" ∨ kw = "minItems" ∨
          kw = "minProperties" ∨ kw = "exclusiveMinimum" then .minKw
  else if kw = "maximum" ∨ kw = "maxLength" ∨ kw = "maxItems" ∨
          kw = "maxProperties" ∨ kw = "exclusiveMaximum" then .maxKw
  else if kw = "pattern" then .patternKw
  else if kw = "multipleOf" then .multipleOfKw
  else .otherKw

/-- One step of the keyword switch of `mergeSchemaKeywords` (constraints.go):
merge the single keyword `kw` with new value `newVal` into the accumulating
fragment `merged`. -/
def mergeKeyword (merged : JObj) (fieldPath existingPolicyID : String)
    (kw : String) (newVal : Json) : Except ConstraintConflictError JObj :=
  match alookup merged kw with
  | none => .ok (ainsert kw newVal merged)
  | some existingVal =>
    match mergeKind kw with
    | .constKw =>
      if jsonValuesEqual existingVal newVal then .ok merged
      else .error ⟨fieldPath, existingPolicyID,
        "cannot change const constraint on field " ++ fieldPath⟩
    | .enumKw =>
      match toSlice existingVal, toSlice newVal with
      | some existingEnum, some newEnum =>
        let intersected := intersectAnySlices existingEnum newEnum
        if intersected.isEmpty then
          .error ⟨fieldPath, existingPolicyID,
            "enum constraint intersection is empty for field " ++ fieldPath⟩
        else .ok (ainsert kw (.arr intersected) merged)
      | _, _ => .ok merged
    | .minKw =>
      match toFloat64 existingVal, toFloat64 newVal with
      | some existingNum, some newNum =>
        if newNum < existingNum then
          .error ⟨fieldPath, existingPolicyID,
            "cannot loosen " ++ kw ++ " constraint on field " ++ fieldPath⟩
        else .ok (ainsert kw (.num (max existingNum newNum)) merged)
      | _, _ => .ok merged
    | .maxKw =>
      match toFloat64 existingVal, toFloat64 newVal with
      | some existingNum, some newNum =>
        if existingNum < newNum then
          .error ⟨fieldPath, existingPolicyID,
            "cannot loosen " ++ kw ++ " constraint on field " ++ fieldPath⟩
        else .ok (ainsert kw (.num (min existingNum newNum)) merged)
      | _, _ => .ok merged
    | .patternKw =>
      match existingVal, newVal with
      | .str existingPattern, .str newPattern =>
        if existingPattern = newPattern then .ok merged
        else
          match alookup merged "allOf" with
          | some (.arr allOf) =>
            .ok (ainsert "allOf"
              (.arr (allOf ++ [.obj [("pattern", .str newPattern)]])) merged)
          | _ =>
            .ok (ainsert "allOf"
              (.arr [.obj [("pattern", .str existingPattern)],
                     .obj [("pattern", .str newPattern)]]) merged)
      | _, _ => .ok merged
    | .multipleOfKw =>
      match toFloat64 existingVal, toFloat64 newVal with
      | some existingNum, some newNum =>
        if existingNum ≠ 0 then
          if ratMulDvd newNum existingNum then .ok (ainsert kw (.num newNum) merged)
          else .error ⟨fieldPath, existingPolicyID,
            "multipleOf is not a multiple of the existing value on field " ++ fieldPath⟩
        else .ok merged
      | _, _ => .ok merged
    | .otherKw => .ok (ainsert kw newVal merged)

/-- The keyword loop of `mergeSchemaKeywords`, threading the accumulating
fragment through the entries of the new fragment. -/
def mergeKeywords (merged : JObj) (entries : JObj) (fieldPath existingPolicyID : String) :
    Except ConstraintConflictError JObj :=
  match entries with
  | [] => .ok merged
  | (kw, newVal) :: rest =>
    match mergeKeyword merged fieldPath existingPolicyID kw newVal with
    | .error e => .error e
    | .ok merged' => mergeKeywords merged' rest fieldPath existingPolicyID

/-- `mergeSchemaKeywords` of constraints.go (`deepCopySchemaMap` is the
identity on the value model). -/
def mergeSchemaKeywords (existing newSchema : JObj) (fieldPath existingPolicyID : String) :
    Except ConstraintConflictError JObj :=
  mergeKeywords existing newSchema fieldPath existingPolicyID

/-- One entry of the per-field loop of `MergeConstraints` (constraints.go):
a non-mapping fragment is skipped; a new field path stores the fragment and
records `set_by`; an existing field path merges keyword by keyword. -/
def mergeConstraintsStep (c : ConstraintContext) (fieldPath : String)
    (schemaRaw : Json) (policyID : String) :
    Except ConstraintConflictError ConstraintContext :=
  match schemaRaw with
  | .obj newSchema =>
    match alookup c.fieldConstraints fieldPath with
    | none =>
      .ok { c with
            fieldConstraints := ainsert fieldPath newSchema c.fieldConstraints,
            setBy := ainsert fieldPath policyID c.setBy }
    | some existing =>
      match mergeSchemaKeywords existing newSchema fieldPath
          ((alookup c.setBy fieldPath).getD "") with
      | .error e => .error e
      | .ok merged =>
        .ok { c with fieldConstraints := ainsert fieldPath merged c.fieldConstraints }
  | _ => .ok c

/-- The per-field loop of `MergeConstraints` (constraints.go). -/
def mergeConstraintsLoop (c : ConstraintContext) (entries : List (String × Json))
    (policyID : String) : Except ConstraintConflictError ConstraintContext :=
  match entries with
  | [] => .ok c
  | (fieldPath, schemaRaw) :: rest =>
    match mergeConstraintsStep c fieldPath schemaRaw policyID with
    | .error e => .error e
    | .ok c1 => mergeConstraintsLoop c1 rest policyID

/-- `MergeConstraints` of constraints.go: merge new per-field JSON Schema
constraints from a policy; tightening only. -/
def MergeConstraints (c : ConstraintContext) (newConstraints : List (String × Json))
    (policyID : String) : Except ConstraintConflictError ConstraintContext :=
  mergeConstraintsLoop c newConstraints policyID

/-- The service provider constraints of a policy decision as consumed by the
constraint context (`opa.ServiceProviderConstraints` in the revision
constraints.go and the evaluator compile against: a plural `patterns` list). -/
structure ServiceProviderConstraints where
  allowList : List String
  patterns : List String

/-- `MergeSPConstraints` of constraints.go.  The evaluator source expands
this into one call per pattern through a helper absent from the sources;
the accumulated state is the same, so the model uses the constraints.go
function directly. -/
def MergeSPConstraints (c : ConstraintContext) (sp : Option ServiceProviderConstraints)
    (policyID : String) : Except String ConstraintContext :=
  match sp with
  | none => .ok c
  | some sp =>
    if sp.allowList.isEmpty && sp.patterns.isEmpty then .ok c
    else
      match c.serviceProviderConstraints with
      | none =>
        .ok { c with serviceProviderConstraints := some ⟨sp.allowList, sp.patterns, policyID⟩ }
      | some acc =>
        if !sp.allowList.isEmpty && !acc.allowList.isEmpty then
          let intersected := intersectStringSlices acc.allowList sp.allowList
          if intersected.isEmpty then
            .error ("service provider allow list intersection is empty: policy "
              ++ policyID ++ " conflicts with policy " ++ acc.setBy)
          else
            .ok { c with serviceProviderConstraints := some ⟨intersected, acc.patterns ++ sp.patterns, acc.setBy⟩ }
        else if !sp.allowList.isEmpty then
          .ok { c with serviceProviderConstraints := some ⟨sp.allowList, acc.patterns ++ sp.patterns, acc.setBy⟩ }
        else
          .ok { c with serviceProviderConstraints := some ⟨acc.allowList, acc.patterns ++ sp.patterns, acc.setBy⟩ }

/-- `ValidateServiceProvider` of constraints.go, with the regular-expression
engine abstracted as `re` (the model does not represent pattern-compilation
failures). -/
def ValidateServiceProvider (re : String → String → Bool) (c : ConstraintContext)
    (provider : String) : Except String Unit :=
  match c.serviceProviderConstraints with
  | none => .ok ()
  | some sp =>
    if provider = "" then .ok ()
    else if !sp.allowList.isEmpty && !sp.allowList.contains provider then
      .error ("provider " ++ provider ++ " is not in the allowed list, constrained by policy "
        ++ sp.setBy)
    else
      match sp.patterns.find? (fun pattern => !re pattern provider) with
      | some pattern =>
        .error ("provider " ++ provider ++ " does not match required pattern " ++ pattern)
      | none => .ok ()

/-- `GetConstraintsMap` of constraints.go (`none` models the `nil` map). -/
def GetConstraintsMap (c : ConstraintContext) : Option (List (String × Json)) :=
  if c.fieldConstraints.isEmpty then none
  else some (c.fieldConstraints.map (fun kv => (kv.1, Json.obj kv.2)))

/-- `GetSPConstraintsMap` of constraints.go. -/
def GetSPConstraintsMap (c : ConstraintContext) : Option JObj :=
  match c.serviceProviderConstraints with
  | none => none
  | some sp =>
    some ((if sp.allowList.isEmpty then [] else
            [("allow_list", Json.arr (sp.allowList.map Json.str))]) ++
          (if sp.patterns.isEmpty then [] else
            [("patterns", Json.arr (sp.patterns.map Json.str))]))

/-- The validation classes of the recognised JSON-Schema keywords (the
dispatch of the spec-modelled validator). -/
inductive ValKind where
  | constV
  | enumV
  | minimumV
  | maximumV
  | exclusiveMinimumV
  | exclusiveMaximumV
  | minLengthV
  | maxLengthV
  | minItemsV
  | maxItemsV
  | minPropertiesV
  | maxPropertiesV
  | multipleOfV
  | patternV
  | otherV
deriving DecidableEq

/-- Which validation rule a keyword falls under (`allOf` is handled in
`schemaEntryOk`). -/
def valKind (kw : String) : ValKind :=
  if kw = "const" then .constV
  else if kw = "enum" then .enumV
  else if kw = "minimum" then .minimumV
  else if kw = "maximum" then .maximumV
  else if kw = "exclusiveMinimum" then .exclusiveMinimumV
  else if kw = "exclusiveMaximum" then .exclusiveMaximumV
  else if kw = "minLength" then .minLengthV
  else if kw = "maxLength" then .maxLengthV
  else if kw = "minItems" then .minItemsV
  else if kw = "maxItems" then .maxItemsV
  else if kw = "minProperties" then .minPropertiesV
  else if kw = "maxProperties" then .maxPropertiesV
  else if kw = "multipleOf" then .multipleOfV
  else if kw = "pattern" then .patternV
  else .otherV

/-- Modelled from the spec: the verdict of the external JSON-Schema validator
on a single recognised keyword class, for schema value `sval` and instance
`v`.  Keywords whose schema value has the wrong shape, and keywords outside
the recognised set, impose no condition.  Numeric keywords constrain only
instances of the matching shape, as JSON Schema does.  A `multipleOf` whose
schema value is `0` is an invalid schema — the real validator fails to
compile it and every validation of the path reports a violation — so it
accepts nothing. -/
def kwValueOk (re : String → String → Bool) : ValKind → Json → Json → Bool
  | .constV, c, v => jsonValuesEqual v c
  | .enumV, .arr es, v => es.any (fun e => jsonValuesEqual v e)
  | .minimumV, .num n, .num m => n ≤ m
  | .maximumV, .num n, .num m => m ≤ n
  | .exclusiveMinimumV, .num n, .num m => n < m
  | .exclusiveMaximumV, .num n, .num m => m < n
  | .minLengthV, .num n, .str s => n ≤ (s.length : ℚ)
  | .maxLengthV, .num n, .str s => (s.length : ℚ) ≤ n
  | .minItemsV, .num n, .arr xs => n ≤ (xs.length : ℚ)
  | .maxItemsV, .num n, .arr xs => (xs.length : ℚ) ≤ n
  | .minPropertiesV, .num n, .obj kvs => n ≤ (kvs.length : ℚ)
  | .maxPropertiesV, .num n, .obj kvs => (kvs.length : ℚ) ≤ n
  | .multipleOfV, .num n, .num m => n != 0 && ratMulDvd m n
  | .patternV, .str p, .str s => re p s
  | _, _, _ => true

/-- The verdict of the validator on one keyword other than `allOf`. -/
def keywordAccepts (re : String → String → Bool) (kw : String) (sval : Json)
    (v : Json) : Bool :=
  kwValueOk re (valKind kw) sval v

mutual
/-- Modelled from the spec: JSON-Schema validation of instance `v` against a
schema fragment, keyword by keyword (conjunctive). -/
def accepts (re : String → String → Bool) : JObj → Json → Bool
  | [], _ => true
  | (kw, sval) :: rest, v => schemaEntryOk re kw sval v && accepts re rest v
/-- One schema entry: `allOf` recurses into its subschemas, every other
keyword is `keywordAccepts`. -/
def schemaEntryOk (re : String → String → Bool) (kw : String) (sval : Json)
    (v : Json) : Bool :=
  if kw = "allOf" then
    match sval with
    | .arr subs => allOfAccepts re subs v
    | _ => true
  else keywordAccepts re kw sval v
/-- Conjunction over the subschemas of an `allOf` (non-object members impose
no condition). -/
def allOfAccepts (re : String → String → Bool) : List Json → Json → Bool
  | [], _ => true
  | sub :: rest, v =>
    (match sub with
     | .obj frag => accepts re frag v
     | _ => true) && allOfAccepts re rest v
end

/-- `ConstraintViolation` as used by `ValidatePatch` and the evaluator (its
declaration is not among the sources; the fields are those the usages set). -/
structure ConstraintViolation where
  fieldPath : String
  reason : String
  setByPolicy : String

/-- The violation check of one field of the patch against the constraint
store (the body of the constraint check inside `validatePatchRecursive`). -/
def fieldViolations (re : String → String → Bool) (fc : List (String × JObj))
    (sb : List (String × String)) (fieldPath : String) (value : Json) :
    List ConstraintViolation :=
  match alookup fc fieldPath with
  | some frag =>
    if accepts re frag value then []
    else [⟨fieldPath, "value violates constraint on field " ++ fieldPath,
           (alookup sb fieldPath).getD ""⟩]
  | none => []

mutual
/-- `validatePatchRecursive` of constraints.go: walk the patch, validating
each field whose dotted path has a constraint, and recurse into nested
mappings. -/
def validatePatchRec (re : String → String → Bool)
    (fc : List (String × JObj)) (sb : List (String × String))
    (pfx : String) : JObj → List ConstraintViolation
  | [] => []
  | (key, value) :: rest =>
    let fieldPath := if pfx = "" then key else pfx ++ "." ++ key
    fieldViolations re fc sb fieldPath value ++
    validatePatchEntry re fc sb fieldPath value ++
    validatePatchRec re fc sb pfx rest
/-- Recurse into a nested mapping of the patch. -/
def validatePatchEntry (re : String → String → Bool)
    (fc : List (String × JObj)) (sb : List (String × String))
    (fieldPath : String) : Json → List ConstraintViolation
  | .obj nested => validatePatchRec re fc sb fieldPath nested
  | _ => []
end

/-- `ValidatePatch` of constraints.go. -/
def ValidatePatch (re : String → String → Bool) (c : ConstraintContext)
    (patch : JObj) : List ConstraintViolation :=
  validatePatchRec re c.fieldConstraints c.setBy "" patch

mutual
/-- `mergePatch` of the evaluation service: RFC 7396 JSON Merge Patch
(`deepCopyMap` is the identity on the value model, and the error path of the
Go function is unreachable there). -/
def mergePatch : JObj → JObj → JObj
  | base, [] => base
  | base, (key, patchValue) :: rest => mergePatch (mergePatchEntry base key patchValue) rest
/-- One patch entry: null deletes, object-into-object recurses, anything else
replaces. -/
def mergePatchEntry (base : JObj) (key : String) : Json → JObj
  | .null => aerase key base
  | .obj patchMap =>
    (match alookup base key with
     | some (.obj baseMap) => ainsert key (.obj (mergePatch baseMap patchMap)) base
     | _ => ainsert key (.obj patchMap) base)
  | patchValue => ainsert key patchValue base

end

/-- A catalog policy as consumed by the evaluation loop (the fields of
`model.Policy` the loop reads; the store already returns only enabled
policies in catalog order, so the model takes the concatenated page
contents as a list). -/
structure Policy where
  id : String
  labelSelector : List (String × String)
  packageName : String

/-- A parsed policy decision as consumed by the evaluator (the revision the
evaluator compiles against, with a plural `patterns` list in the service
provider constraints). -/
structure PolicyDecision where
  rejected : Bool
  rejectionReason : String
  patch : Option JObj
  constraints : Option (List (String × Json))
  serviceProviderConstraints : Option ServiceProviderConstraints
  selectedProvider : String

/-- The rule input assembled for one policy (`opaInput` in `evaluatePolicy`);
`none` models a key left out of the map. -/
structure OpaInput where
  spec : JObj
  provider : String
  constraints : Option (List (String × Json))
  serviceProviderConstraints : Option JObj

/-- The evaluation errors raised by `evaluatePolicy` and `EvaluateRequest`
(modelled from the error constructors the evaluator calls, which are not
among the sources; each constructor carries the arguments of the
corresponding call). -/
inductive EvalError where
  | internal (message detail : String)
  | policyRejected (policyId reason : String)
  | constraintConflict (policyId fieldPath setBy reason : String)
  | constraintViolation (policyId : String) (violations : List ConstraintViolation)
  | serviceProviderConstraint (policyId reason : String)

/-- The external rule runtime composed with decision parsing: for a policy
and its rule input, an error models a runtime failure, `none` an undefined
decision, and `some` the parsed decision. -/
abbrev Oracle := Policy → OpaInput → Except String (Option PolicyDecision)

/-- Build the rule input of `evaluatePolicy` (step 1). -/
def buildOpaInput (c : ConstraintContext) (currentSpec : JObj)
    (selectedProvider : String) : OpaInput :=
  ⟨currentSpec, selectedProvider, GetConstraintsMap c, GetSPConstraintsMap c⟩

/-- `evaluatePolicy` of the evaluation service: evaluate one policy against
the current state, returning the new spec, provider and constraint context. -/
def evaluatePolicy (re : String → String → Bool) (oracle : Oracle)
    (policy : Policy) (currentSpec : JObj) (selectedProvider : String)
    (constraintCtx : ConstraintContext) :
    Except EvalError (JObj × String × ConstraintContext) :=
  match oracle policy (buildOpaInput constraintCtx currentSpec selectedProvider) with
  | .error msg => .error (.internal ("Failed to evaluate policy " ++ policy.id) msg)
  | .ok none => .ok (currentSpec, selectedProvider, constraintCtx)
  | .ok (some decision) =>
    if decision.rejected then
      .error (.policyRejected policy.id decision.rejectionReason)
    else
      match ((match decision.constraints with
              | none => .ok constraintCtx
              | some cs => MergeConstraints constraintCtx cs policy.id) :
             Except ConstraintConflictError ConstraintContext) with
      | .error e =>
        .error (.constraintConflict policy.id e.fieldPath e.setByPolicy e.reason)
      | .ok c1 =>
        match MergeSPConstraints c1 decision.serviceProviderConstraints policy.id with
        | .error msg => .error (.serviceProviderConstraint policy.id msg)
        | .ok c2 =>
          match ((match decision.patch with
                  | none => .ok currentSpec
                  | some patch =>
                    if (ValidatePatch re c2 patch).isEmpty then .ok (mergePatch currentSpec patch)
                    else .error (EvalError.constraintViolation policy.id (ValidatePatch re c2 patch))) :
                 Except EvalError JObj) with
          | .error e => .error e
          | .ok newSpec =>
            if decision.selectedProvider = "" then
              .ok (newSpec, selectedProvider, c2)
            else
              match ValidateServiceProvider re c2 decision.selectedProvider with
              | .error msg => .error (.serviceProviderConstraint policy.id msg)
              | .ok _ => .ok (newSpec, decision.selectedProvider, c2)

/-- Modelled from the spec: `MatchesLabelSelector` is called by the
evaluation loop but absent from the sources; the spec defines it as a
subset match — every selector entry must equal a request label, extra
request labels are allowed, an empty selector matches everything. -/
def MatchesLabelSelector (labelSelector : List (String × String))
    (requestLabels : List (String × String)) : Bool :=
  labelSelector.all (fun kv => alookup requestLabels kv.1 == some kv.2)

/-- The policy loop of `EvaluateRequest`: skip policies whose label selector
does not match, thread the state through `evaluatePolicy` otherwise. -/
def evalFold (re : String → String → Bool) (oracle : Oracle)
    (requestLabels : List (String × String)) :
    List Policy → JObj → String → ConstraintContext →
    Except EvalError (JObj × String × ConstraintContext)
  | [], currentSpec, selectedProvider, c => .ok (currentSpec, selectedProvider, c)
  | policy :: rest, currentSpec, selectedProvider, c =>
    if MatchesLabelSelector policy.labelSelector requestLabels then
      match evaluatePolicy re oracle policy currentSpec selectedProvider c with
      | .error e => .error e
      | .ok (s', p', c') => evalFold re oracle requestLabels rest s' p' c'
    else
      evalFold re oracle requestLabels rest currentSpec selectedProvider c

/-- `EvaluationStatus` of the evaluation service. -/
inductive EvaluationStatus where
  | approved
  | modified
deriving DecidableEq

/-- `EvaluationRequest` of the evaluation service. -/
structure EvaluationRequest where
  serviceInstance : JObj
  requestLabels : List (String × String)

/-- `EvaluationResponse` of the evaluation service. -/
structure EvaluationResponse where
  evaluatedServiceInstance : JObj
  selectedProvider : String
  status : EvaluationStatus

/-- `EvaluateRequest` of the evaluation service: fold all policies (the
store pages are concatenated into one list) over the service instance,
then compare the result with the input to decide the status. -/
def EvaluateRequest (re : String → String → Bool) (oracle : Oracle)
    (policies : List Policy) (req : EvaluationRequest) :
    Except EvalError EvaluationResponse :=
  match evalFold re oracle req.requestLabels policies req.serviceInstance ""
      NewConstraintContext with
  | .error e => .error e
  | .ok (currentSpec, selectedProvider, _) =>
    .ok ⟨currentSpec, selectedProvider,
      if mapsEqual req.serviceInstance currentSpec then .approved else .modified⟩

/-- `extractRequestLabels` of internal/handlers/engine/converters.go:
`service_type` plus the string-valued entries of `metadata.labels`
(non-string label values are dropped; a label overwrites an earlier entry
with the same key, as a Go map write does). -/
def extractRequestLabels (spec : JObj) : Except String (List (String × String)) :=
  match alookup spec "service_type" with
  | some (.str serviceType) =>
    let labels : JObj :=
      match alookup spec "metadata" with
      | some (.obj metadata) =>
        match alookup metadata "labels" with
        | some (.obj ls) => ls
        | _ => []
      | _ => []
    .ok (labels.foldl
      (fun result kv =>
        match kv.2 with
        | .str s => ainsert kv.1 s result
        | _ => result)
      [("service_type", serviceType)])
  | _ => .error "service type is required"

namespace opa

/-- `ServiceProviderConstraints` of src/internal/opa/evaluation.go (the
revision among the sources: a singular `pattern` field). -/
structure ServiceProviderConstraints where
  allowList : List String
  pattern : String

/-- `PolicyDecision` of src/internal/opa/evaluation.go. -/
structure PolicyDecision where
  rejected : Bool
  rejectionReason : String
  patch : Option JObj
  constraints : Option (List (String × Json))
  serviceProviderConstraints : Option ServiceProviderConstraints
  selectedProvider : String

/-- `ParsePolicyDecision` of src/internal/opa/evaluation.go: read each
recognised key if it has the expected shape, defaulting otherwise. -/
def ParsePolicyDecision (result : JObj) : PolicyDecision :=
  { rejected :=
      match alookup result "rejected" with
      | some (.bool b) => b
      | _ => false,
    rejectionReason :=
      match alookup result "rejection_reason" with
      | some (.str s) => s
      | _ => "",
    patch :=
      match alookup result "patch" with
      | some (.obj p) => some p
      | _ => none,
    constraints :=
      match alookup result "constraints" with
      | some (.obj cs) => some cs
      | _ => none,
    serviceProviderConstraints :=
      match alookup result "service_provider_constraints" with
      | some (.obj spc) =>
        some
          { allowList :=
              match alookup spc "allow_list" with
              | some (.arr items) =>
                items.filterMap (fun item =>
                  match item with
                  | .str s => some s
                  | _ => none)
              | _ => [],
            pattern :=
              match alookup spc "pattern" with
              | some (.str p) => p
              | _ => "" }
      | _ => none,
    selectedProvider :=
      match alookup result "selected_provider" with
      | some (.str s) => s
      | _ => "" }

end opa

/-- Split a dotted field path into its segments (on the character level, so
that the result is computable by the kernel). -/
def splitSegs (acc : List Char) : List Char → List (List Char)
  | [] => [acc.reverse]
  | c :: cs => if c = '.' then acc.reverse :: splitSegs [] cs else splitSegs (c :: acc) cs

/-- The segments of a dotted field path. -/
def splitPath (s : String) : List String :=
  (splitSegs [] s.data).map (fun cs => String.mk cs)

/-- Walk a JSON object along a list of path segments. -/
def lookupSegs (spec : JObj) : List String → Option Json
  | [] => some (.obj spec)
  | [seg] => alookup spec seg
  | seg :: rest =>
    match alookup spec seg with
    | some (.obj nested) => lookupSegs nested rest
    | _ => none

/-- The value of a service instance at a dotted field path, if any. -/
def lookupDotted (spec : JObj) (path : String) : Option Json :=
  lookupSegs spec (splitPath path)

/-- The admissibility of value `v` on field path `fp` under a constraint
store: the stored fragment must accept `v`; an unconstrained path accepts
everything. -/
def acceptsPath (re : String → String → Bool) (fc : List (String × JObj))
    (fp : String) (v : Json) : Bool :=
  match alookup fc fp with
  | some frag => accepts re frag v
  | none => true

/-- A service instance satisfies a constraint store when, for every
constrained field path, the value present at that path (if any) is accepted
by the stored fragment. -/
def instanceSatisfies (re : String → String → Bool) (spec : JObj)
    (fc : List (String × JObj)) : Bool :=
  fc.all (fun kv =>
    match lookupDotted spec kv.1 with
    | some v => accepts re kv.2 v
    | none => true)

mutual
/-- All fields visited by the patch walk of `ValidatePatch`: each entry of
the patch under its dotted path, including nested mapping entries. -/
def patchFields (pfx : String) : JObj → List (String × Json)
  | [] => []
  | (key, value) :: rest =>
    let fieldPath := if pfx = "" then key else pfx ++ "." ++ key
    (fieldPath, value) :: patchFieldsEntry fieldPath value ++ patchFields pfx rest
/-- Nested fields of one patch value. -/
def patchFieldsEntry (fieldPath : String) : Json → List (String × Json)
  | .obj nested => patchFields fieldPath nested
  | _ => []
end

/-- The keywords for which `mergeSchemaKeywords` has a tightening merge rule
(every other keyword is overwritten by the new value with no check). -/
def mergeableKeywords : List String :=
  ["const", "enum", "multipleOf", "pattern"] ++ minKeywords ++ maxKeywords

/-- The string-valued entries of a labels mapping (the entries
`extractRequestLabels` keeps). -/
def stringEntries (labels : JObj) : List (String × String) :=
  labels.filterMap (fun kv =>
    match kv.2 with
    | .str s => some (kv.1, s)
    | _ => none)

/-- The labels mapping of a service instance (`spec.metadata.labels` when it
is a mapping, empty otherwise). -/
def metadataLabels (spec : JObj) : JObj :=
  match alookup spec "metadata" with
  | some (.obj metadata) =>
    match alookup metadata "labels" with
    | some (.obj ls) => ls
    | _ => []
  | _ => []

/-- The condition under which merging keyword `kw` (of merge-rule class
`mk = mergeKind kw`) with new value `v` into a fragment whose current value
at `kw` is `cur` succeeds and returns the fragment unchanged, read off the
arms of the keyword switch of `mergeSchemaKeywords` (constraints.go). -/
def SelfCondK : MergeKind → Json → Option Json → Prop
  | _, _, none => False
  | .constKw, v, some ex => jsonValuesEqual ex v = true
  | .enumKw, v, some ex =>
    match toSlice ex, toSlice v with
    | some a, some b => intersectAnySlices a b = a ∧ a ≠ []
    | _, _ => True
  | .minKw, v, some ex =>
    match toFloat64 ex, toFloat64 v with
    | some en, some nn => en = nn
    | _, _ => True
  | .maxKw, v, some ex =>
    match toFloat64 ex, toFloat64 v with
    | some en, some nn => en = nn
    | _, _ => True
  | .patternKw, v, some ex =>
    match ex, v with
    | .str p0, .str s => p0 = s
    | _, _ => True
  | .multipleOfKw, v, some ex =>
    match toFloat64 ex, toFloat64 v with
    | some en, some nn => en = 0 ∨ nn = en
    | _, _ => True
  | .otherKw, v, some ex => ex = v

/-- A field entry of a constraints map is absorbed by accumulated field
constraints `fc`: when the entry value is a mapping, `fc` stores a fragment
for the path and re-merging the entry into that fragment is the identity. -/
def MergedOk (fc : List (String × JObj)) (fp : String) (sv : Json) : Prop :=
  ∀ ns, sv = Json.obj ns → ∃ F, alookup fc fp = some F ∧
    ∀ fp2 pid2, mergeKeywords F ns fp2 pid2 = Except.ok F

/- ------------------------------------------------------------------ -/
/- Theorems.                                                           -/
/- ------------------------------------------------------------------ -/

theorem alookup_ainsert_self {α : Type} (l : List (String × α)) (k : String) (v : α) :
    alookup (ainsert k v l) k = some v := by
  induction l with
  | nil => simp [ainsert, alookup]
  | cons hd tl ih =>
    obtain ⟨k', v'⟩ := hd
    by_cases h : k' = k <;> simp [ainsert, alookup, h, ih]

theorem alookup_ainsert_ne {α : Type} (l : List (String × α)) {k k' : String} (v : α)
    (h : k ≠ k') : alookup (ainsert k v l) k' = alookup l k' := by
  induction l with
  | nil => simp [ainsert, alookup, h]
  | cons hd tl ih =>
    obtain ⟨k0, v0⟩ := hd
    by_cases h0 : k0 = k
    · subst h0
      simp [ainsert, alookup, h]
    · simp [ainsert, h0, alookup]
      by_cases h1 : k0 = k' <;> simp [h1, ih]

theorem ainsert_self {α : Type} {l : List (String × α)} {k : String} {v : α}
    (h : alookup l k = some v) : ainsert k v l = l := by
  induction l with
  | nil => simp [alookup] at h
  | cons hd tl ih =>
    obtain ⟨k0, v0⟩ := hd
    by_cases h0 : k0 = k
    · subst h0
      simp [alookup] at h
      simp [ainsert, h]
    · simp [alookup, h0] at h
      simp [ainsert, h0, ih h]

theorem alookup_eq_none_of_not_mem {α : Type} {l : List (String × α)} {k : String}
    (h : k ∉ l.map Prod.fst) : alookup l k = none := by
  induction l with
  | nil => simp [alookup]
  | cons hd tl ih =>
    obtain ⟨k0, v0⟩ := hd
    rw [List.map_cons, List.mem_cons] at h
    push_neg at h
    rw [alookup, if_neg (fun hc => h.1 hc.symm)]
    exact ih h.2

theorem alookup_aerase_self {α : Type} {l : List (String × α)} {k : String}
    (h : KeysNodup l) : alookup (aerase k l) k = none := by
  induction l with
  | nil => simp [aerase, alookup]
  | cons hd tl ih =>
    obtain ⟨k0, v0⟩ := hd
    rw [KeysNodup, List.map_cons, List.nodup_cons] at h
    by_cases h0 : k0 = k
    · subst h0
      rw [aerase, if_pos rfl]
      exact alookup_eq_none_of_not_mem h.1
    · rw [aerase, if_neg h0, alookup, if_neg h0]
      exact ih h.2

theorem alookup_aerase_ne {α : Type} (l : List (String × α)) {k k' : String}
    (h : k ≠ k') : alookup (aerase k l) k' = alookup l k' := by
  induction l with
  | nil => simp [aerase]
  | cons hd tl ih =>
    obtain ⟨k0, v0⟩ := hd
    by_cases h0 : k0 = k
    · subst h0
      simp [aerase, alookup, h]
    · simp only [aerase, if_neg h0, alookup]
      by_cases h1 : k0 = k' <;> simp [h1, ih]

theorem mem_keys_ainsert {α : Type} {l : List (String × α)} {k k' : String} {v : α}
    (h : k' ∈ (ainsert k v l).map Prod.fst) : k' ∈ l.map Prod.fst ∨ k' = k := by
  induction l with
  | nil =>
    simp only [ainsert, List.map_cons, List.map_nil, List.mem_singleton] at h
    exact Or.inr h
  | cons hd tl ih =>
    obtain ⟨k0, v0⟩ := hd
    by_cases h0 : k0 = k
    · subst h0
      simp [ainsert, List.mem_map] at h ⊢
      tauto
    · simp only [ainsert, if_neg h0, List.map_cons, List.mem_cons] at h
      rw [List.map_cons, List.mem_cons]
      rcases h with h | h
      · exact Or.inl (Or.inl h)
      · rcases ih h with hh | hh
        · exact Or.inl (Or.inr hh)
        · exact Or.inr hh

theorem mem_keys_aerase {α : Type} {l : List (String × α)} {k k' : String}
    (h : k' ∈ (aerase k l).map Prod.fst) : k' ∈ l.map Prod.fst := by
  induction l with
  | nil => simp [aerase] at h
  | cons hd tl ih =>
    obtain ⟨k0, v0⟩ := hd
    rw [List.map_cons, List.mem_cons]
    by_cases h0 : k0 = k
    · subst h0
      rw [aerase, if_pos rfl] at h
      exact Or.inr h
    · rw [aerase, if_neg h0, List.map_cons, List.mem_cons] at h
      rcases h with h | h
      · exact Or.inl h
      · exact Or.inr (ih h)

theorem keysNodup_ainsert {α : Type} {l : List (String × α)} (k : String) (v : α)
    (h : KeysNodup l) : KeysNodup (ainsert k v l) := by
  induction l with
  | nil => simp [ainsert, KeysNodup]
  | cons hd tl ih =>
    obtain ⟨k0, v0⟩ := hd
    rw [KeysNodup, List.map_cons, List.nodup_cons] at h
    by_cases h0 : k0 = k
    · subst h0
      rw [KeysNodup, ainsert, if_pos rfl, List.map_cons, List.nodup_cons]
      exact h
    · have htl := ih h.2
      rw [KeysNodup, ainsert, if_neg h0, List.map_cons, List.nodup_cons]
      refine ⟨fun hc => ?_, htl⟩
      rcases mem_keys_ainsert hc with hc | hc
      · exact h.1 hc
      · exact h0 hc

theorem keysNodup_aerase {α : Type} {l : List (String × α)} (k : String)
    (h : KeysNodup l) : KeysNodup (aerase k l) := by
  induction l with
  | nil => simp [aerase, KeysNodup]
  | cons hd tl ih =>
    obtain ⟨k0, v0⟩ := hd
    rw [KeysNodup, List.map_cons, List.nodup_cons] at h
    by_cases h0 : k0 = k
    · subst h0
      rw [aerase, if_pos rfl]
      exact h.2
    · have htl := ih h.2
      rw [KeysNodup, aerase, if_neg h0, List.map_cons, List.nodup_cons]
      exact ⟨fun hc => h.1 (mem_keys_aerase hc), htl⟩

mutual
theorem Json.beq_refl : ∀ j : Json, Json.beq j j = true
  | .null => rfl
  | .bool b => by simp [Json.beq]
  | .num q => by simp [Json.beq]
  | .str s => by simp [Json.beq]
  | .arr xs => by rw [Json.beq]; exact Json.beqList_refl xs
  | .obj kvs => by rw [Json.beq]; exact Json.beqObj_refl kvs
theorem Json.beqList_refl : ∀ xs : List Json, Json.beqList xs xs = true
  | [] => rfl
  | x :: xs => by rw [Json.beqList]; simp [Json.beq_refl x, Json.beqList_refl xs]
theorem Json.beqObj_refl : ∀ kvs : JObj, Json.beqObj kvs kvs = true
  | [] => rfl
  | (k, v) :: kvs => by rw [Json.beqObj]; simp [Json.beq_refl v, Json.beqObj_refl kvs]
end

theorem jsonValuesEqual_refl (a : Json) : jsonValuesEqual a a = true :=
  Json.beq_refl a.canon

theorem accepts_cons (re : String → String → Bool) (kw : String) (sval : Json)
    (rest : JObj) (v : Json) :
    accepts re ((kw, sval) :: rest) v = (schemaEntryOk re kw sval v && accepts re rest v) := by
  rw [accepts]

theorem accepts_append (re : String → String → Bool) (a b : JObj) (v : Json) :
    accepts re (a ++ b) v = (accepts re a v && accepts re b v) := by
  induction a with
  | nil => simp [accepts]
  | cons hd tl ih =>
    obtain ⟨kw, sval⟩ := hd
    simp [accepts_cons, ih, Bool.and_assoc]

theorem ainsert_eq_append_of_none {α : Type} {l : List (String × α)} {k : String}
    (v : α) (h : alookup l k = none) : ainsert k v l = l ++ [(k, v)] := by
  induction l with
  | nil => simp [ainsert]
  | cons hd tl ih =>
    obtain ⟨k0, v0⟩ := hd
    by_cases h0 : k0 = k
    · simp [alookup, h0] at h
    · simp [alookup, h0] at h
      simp [ainsert, h0, ih h]

theorem allOfAccepts_append (re : String → String → Bool) (xs ys : List Json) (v : Json) :
    allOfAccepts re (xs ++ ys) v = (allOfAccepts re xs v && allOfAccepts re ys v) := by
  induction xs with
  | nil => simp [allOfAccepts]
  | cons hd tl ih =>
    cases hd <;> simp [allOfAccepts, ih, Bool.and_assoc]

theorem accepts_ainsert_of_imp {re : String → String → Bool} {kw : String}
    {nv old : Json} {frag : JObj} {v : Json}
    (hold : alookup frag kw = some old)
    (himp : schemaEntryOk re kw nv v = true → schemaEntryOk re kw old v = true) :
    accepts re (ainsert kw nv frag) v = true → accepts re frag v = true := by
  induction frag with
  | nil => simp [alookup] at hold
  | cons hd tl ih =>
    obtain ⟨k0, s0⟩ := hd
    by_cases h0 : k0 = kw
    · subst h0
      simp [alookup] at hold
      subst hold
      simp [ainsert, accepts_cons, Bool.and_eq_true]
      intro h1 h2
      exact ⟨himp h1, h2⟩
    · simp [alookup, h0] at hold
      simp [ainsert, h0, accepts_cons, Bool.and_eq_true]
      intro h1 h2
      exact ⟨h1, ih hold h2⟩

theorem accepts_ainsert_new {re : String → String → Bool} {kw : String}
    {nv : Json} {frag : JObj} {v : Json} (h : alookup frag kw = none) :
    accepts re (ainsert kw nv frag) v = true → accepts re frag v = true := by
  rw [ainsert_eq_append_of_none nv h, accepts_append, Bool.and_eq_true]
  exact And.left

theorem ratMulDvd_iff {a b : ℚ} (hb : b ≠ 0) :
    ratMulDvd a b = true ↔ ∃ k : ℤ, a = k * b := by
  have hbnum : b.num ≠ 0 := Rat.num_ne_zero.mpr hb
  have haden : (a.den : ℚ) ≠ 0 := by
    exact_mod_cast (Nat.cast_ne_zero (R := ℚ)).mpr a.den_nz
  have hbden : (b.den : ℚ) ≠ 0 := by
    exact_mod_cast (Nat.cast_ne_zero (R := ℚ)).mpr b.den_nz
  have hbq : (b.num : ℚ) ≠ 0 := Int.cast_ne_zero.mpr hbnum
  rw [ratMulDvd, beq_iff_eq]
  constructor
  · intro h
    have hdvd : ((a.den : ℤ) * b.num) ∣ (a.num * (b.den : ℤ)) :=
      Int.dvd_of_emod_eq_zero h
    obtain ⟨k, hk⟩ := hdvd
    refine ⟨k, ?_⟩
    have hq : (a.num : ℚ) * (b.den : ℚ) = ((a.den : ℚ) * (b.num : ℚ)) * (k : ℚ) := by
      exact_mod_cast congrArg (fun z : ℤ => (z : ℚ)) hk
    rw [← Rat.num_div_den a, ← Rat.num_div_den b]
    field_simp
    linarith [hq]
  · rintro ⟨k, hk⟩
    apply Int.emod_eq_zero_of_dvd
    refine ⟨k, ?_⟩
    have hq : (a.num : ℚ) * (b.den : ℚ) = ((a.den : ℚ) * (b.num : ℚ)) * (k : ℚ) := by
      have h1 : (a.num : ℚ) / (a.den : ℚ) = (k : ℚ) * ((b.num : ℚ) / (b.den : ℚ)) := by
        rw [Rat.num_div_den a, Rat.num_div_den b]
        exact_mod_cast hk
      field_simp at h1
      linarith [h1]
    exact_mod_cast hq

theorem ratMulDvd_self (n : ℚ) : ratMulDvd n n = true := by
  rw [ratMulDvd, beq_iff_eq, mul_comm (n.den : ℤ) n.num, Int.emod_self]

theorem ratMulDvd_trans {m n e : ℚ} (hn : n ≠ 0) (he : e ≠ 0)
    (h1 : ratMulDvd m n = true) (h2 : ratMulDvd n e = true) :
    ratMulDvd m e = true := by
  obtain ⟨k, hk⟩ := (ratMulDvd_iff hn).mp h1
  obtain ⟨j, hj⟩ := (ratMulDvd_iff he).mp h2
  refine (ratMulDvd_iff he).mpr ⟨k * j, ?_⟩
  rw [hk, hj]
  push_cast
  ring

theorem schemaEntryOk_not_allOf {re : String → String → Bool} {kw : String}
    {sval v : Json} (h : kw ≠ "allOf") :
    schemaEntryOk re kw sval v = keywordAccepts re kw sval v := by
  cases sval <;> simp [schemaEntryOk, h]

theorem schemaEntryOk_allOf_arr {re : String → String → Bool} {subs : List Json}
    {v : Json} : schemaEntryOk re "allOf" (.arr subs) v = allOfAccepts re subs v := rfl

theorem keywordAccepts_const (re : String → String → Bool) (sval v : Json) :
    keywordAccepts re "const" sval v = kwValueOk re .constV sval v := rfl

theorem keywordAccepts_enum (re : String → String → Bool) (sval v : Json) :
    keywordAccepts re "enum" sval v = kwValueOk re .enumV sval v := rfl

theorem keywordAccepts_minimum (re : String → String → Bool) (sval v : Json) :
    keywordAccepts re "minimum" sval v = kwValueOk re .minimumV sval v := rfl

theorem keywordAccepts_maximum (re : String → String → Bool) (sval v : Json) :
    keywordAccepts re "maximum" sval v = kwValueOk re .maximumV sval v := rfl

theorem keywordAccepts_exclusiveMinimum (re : String → String → Bool) (sval v : Json) :
    keywordAccepts re "exclusiveMinimum" sval v = kwValueOk re .exclusiveMinimumV sval v := rfl

theorem keywordAccepts_exclusiveMaximum (re : String → String → Bool) (sval v : Json) :
    keywordAccepts re "exclusiveMaximum" sval v = kwValueOk re .exclusiveMaximumV sval v := rfl

theorem keywordAccepts_minLength (re : String → String → Bool) (sval v : Json) :
    keywordAccepts re "minLength" sval v = kwValueOk re .minLengthV sval v := rfl

theorem keywordAccepts_maxLength (re : String → String → Bool) (sval v : Json) :
    keywordAccepts re "maxLength" sval v = kwValueOk re .maxLengthV sval v := rfl

theorem keywordAccepts_minItems (re : String → String → Bool) (sval v : Json) :
    keywordAccepts re "minItems" sval v = kwValueOk re .minItemsV sval v := rfl

theorem keywordAccepts_maxItems (re : String → String → Bool) (sval v : Json) :
    keywordAccepts re "maxItems" sval v = kwValueOk re .maxItemsV sval v := rfl

theorem keywordAccepts_minProperties (re : String → String → Bool) (sval v : Json) :
    keywordAccepts re "minProperties" sval v = kwValueOk re .minPropertiesV sval v := rfl

theorem keywordAccepts_maxProperties (re : String → String → Bool) (sval v : Json) :
    keywordAccepts re "maxProperties" sval v = kwValueOk re .maxPropertiesV sval v := rfl

theorem keywordAccepts_multipleOf (re : String → String → Bool) (sval v : Json) :
    keywordAccepts re "multipleOf" sval v = kwValueOk re .multipleOfV sval v := rfl

theorem keywordAccepts_pattern (re : String → String → Bool) (sval v : Json) :
    keywordAccepts re "pattern" sval v = kwValueOk re .patternV sval v := rfl

set_option linter.unnecessarySeqFocus false in
theorem mergeKind_otherKw_iff {kw : String} :
    mergeKind kw = .otherKw ↔ kw ∉ mergeableKeywords := by
  simp only [mergeableKeywords, minKeywords, maxKeywords, List.mem_cons,
    List.mem_append, List.not_mem_nil, or_false, or_assoc, mergeKind]
  split_ifs with h1 h2 h3 h4 h5 h6 <;> simp_all <;> tauto

theorem mergeKind_eq_enum {kw : String} (h : mergeKind kw = .enumKw) : kw = "enum" := by
  rw [mergeKind] at h
  split_ifs at h
  assumption

theorem mergeKind_eq_multipleOf {kw : String} (h : mergeKind kw = .multipleOfKw) :
    kw = "multipleOf" := by
  rw [mergeKind] at h
  split_ifs at h
  assumption

theorem mergeKind_eq_min {kw : String} (h : mergeKind kw = .minKw) :
    kw = "minimum" ∨ kw = "minLength" ∨ kw = "minItems" ∨
    kw = "minProperties" ∨ kw = "exclusiveMinimum" := by
  rw [mergeKind] at h
  split_ifs at h with h1 h2 h3
  assumption

theorem mergeKind_eq_max {kw : String} (h : mergeKind kw = .maxKw) :
    kw = "maximum" ∨ kw = "maxLength" ∨ kw = "maxItems" ∨
    kw = "maxProperties" ∨ kw = "exclusiveMaximum" := by
  rw [mergeKind] at h
  split_ifs at h with h1 h2 h3 h4
  assumption

theorem mergeKeyword_tightens {re : String → String → Bool} {merged m' : JObj}
    {fp pid kw : String} {nv : Json}
    (hkw : kw ∈ mergeableKeywords)
    (hok : mergeKeyword merged fp pid kw nv = .ok m')
    {v : Json} (hacc : accepts re m' v = true) : accepts re merged v = true := by
  rcases halk : alookup merged kw with _ | existing
  · rw [mergeKeyword, halk] at hok
    cases hok
    exact accepts_ainsert_new halk hacc
  · rw [mergeKeyword, halk] at hok
    rcases hknd : mergeKind kw with _ | _ | _ | _ | _ | _ | _ <;> rw [hknd] at hok
    -- const
    · by_cases hc : jsonValuesEqual existing nv = true
      · simp [hc] at hok
        subst hok
        exact hacc
      · simp [Bool.not_eq_true] at hc
        simp [hc] at hok
    -- enum
    · have hkweq := mergeKind_eq_enum hknd
      subst hkweq
      rcases existing with _ | _ | _ | _ | ex | _ <;>
        rcases nv with _ | _ | _ | _ | nw | _ <;>
        simp [toSlice] at hok <;>
        try (subst hok; exact hacc)
      rcases hemp : (intersectAnySlices ex nw).isEmpty with _ | _
      · simp [hemp] at hok
        subst hok
        refine accepts_ainsert_of_imp halk ?_ hacc
        rw [schemaEntryOk_not_allOf (by decide), schemaEntryOk_not_allOf (by decide),
          keywordAccepts_enum, keywordAccepts_enum]
        simp only [kwValueOk, List.any_eq_true]
        rintro ⟨x, hx, hvx⟩
        exact ⟨x, List.mem_of_mem_filter hx, hvx⟩
      · simp [hemp] at hok
    -- min keywords
    · rcases existing with _ | _ | e | _ | _ | _ <;>
        rcases nv with _ | _ | n | _ | _ | _ <;>
        simp [toFloat64] at hok <;>
        try (subst hok; exact hacc)
      by_cases hlt : n < e
      · simp [hlt] at hok
      · simp [hlt] at hok
        subst hok
        refine accepts_ainsert_of_imp halk ?_ hacc
        rcases mergeKind_eq_min hknd with rfl | rfl | rfl | rfl | rfl
        · rw [schemaEntryOk_not_allOf (by decide), schemaEntryOk_not_allOf (by decide),
            keywordAccepts_minimum, keywordAccepts_minimum]
          cases v <;> simp only [kwValueOk, decide_eq_true_eq] <;> intro h <;> try trivial
          exact le_trans (le_max_left e n) h
        · rw [schemaEntryOk_not_allOf (by decide), schemaEntryOk_not_allOf (by decide),
            keywordAccepts_minLength, keywordAccepts_minLength]
          cases v <;> simp only [kwValueOk, decide_eq_true_eq] <;> intro h <;> try trivial
          exact le_trans (le_max_left e n) h
        · rw [schemaEntryOk_not_allOf (by decide), schemaEntryOk_not_allOf (by decide),
            keywordAccepts_minItems, keywordAccepts_minItems]
          cases v <;> simp only [kwValueOk, decide_eq_true_eq] <;> intro h <;> try trivial
          exact le_trans (le_max_left e n) h
        · rw [schemaEntryOk_not_allOf (by decide), schemaEntryOk_not_allOf (by decide),
            keywordAccepts_minProperties, keywordAccepts_minProperties]
          cases v <;> simp only [kwValueOk, decide_eq_true_eq] <;> intro h <;> try trivial
          exact le_trans (le_max_left e n) h
        · rw [schemaEntryOk_not_allOf (by decide), schemaEntryOk_not_allOf (by decide),
            keywordAccepts_exclusiveMinimum, keywordAccepts_exclusiveMinimum]
          cases v <;> simp only [kwValueOk, decide_eq_true_eq] <;> intro h <;> try trivial
          exact lt_of_le_of_lt (le_max_left e n) h
    -- max keywords
    · rcases existing with _ | _ | e | _ | _ | _ <;>
        rcases nv with _ | _ | n | _ | _ | _ <;>
        simp [toFloat64] at hok <;>
        try (subst hok; exact hacc)
      by_cases hlt : e < n
      · simp [hlt] at hok
      · simp [hlt] at hok
        subst hok
        refine accepts_ainsert_of_imp halk ?_ hacc
        rcases mergeKind_eq_max hknd with rfl | rfl | rfl | rfl | rfl
        · rw [schemaEntryOk_not_allOf (by decide), schemaEntryOk_not_allOf (by decide),
            keywordAccepts_maximum, keywordAccepts_maximum]
          cases v <;> simp only [kwValueOk, decide_eq_true_eq] <;> intro h <;> try trivial
          exact le_trans h (min_le_left e n)
        · rw [schemaEntryOk_not_allOf (by decide), schemaEntryOk_not_allOf (by decide),
            keywordAccepts_maxLength, keywordAccepts_maxLength]
          cases v <;> simp only [kwValueOk, decide_eq_true_eq] <;> intro h <;> try trivial
          exact le_trans h (min_le_left e n)
        · rw [schemaEntryOk_not_allOf (by decide), schemaEntryOk_not_allOf (by decide),
            keywordAccepts_maxItems, keywordAccepts_maxItems]
          cases v <;> simp only [kwValueOk, decide_eq_true_eq] <;> intro h <;> try trivial
          exact le_trans h (min_le_left e n)
        · rw [schemaEntryOk_not_allOf (by decide), schemaEntryOk_not_allOf (by decide),
            keywordAccepts_maxProperties, keywordAccepts_maxProperties]
          cases v <;> simp only [kwValueOk, decide_eq_true_eq] <;> intro h <;> try trivial
          exact le_trans h (min_le_left e n)
        · rw [schemaEntryOk_not_allOf (by decide), schemaEntryOk_not_allOf (by decide),
            keywordAccepts_exclusiveMaximum, keywordAccepts_exclusiveMaximum]
          cases v <;> simp only [kwValueOk, decide_eq_true_eq] <;> intro h <;> try trivial
          exact lt_of_lt_of_le h (min_le_left e n)
    -- pattern
    · rcases existing with _ | _ | _ | pe | _ | _ <;>
        rcases nv with _ | _ | _ | pn | _ | _ <;>
        simp at hok <;>
        try (subst hok; exact hacc)
      by_cases hpe : pe = pn
      · simp [hpe] at hok
        subst hok
        exact hacc
      · simp [hpe] at hok
        rcases hall : alookup merged "allOf" with _ | aval
        · rw [hall] at hok
          simp at hok
          subst hok
          exact accepts_ainsert_new hall hacc
        · rcases aval with _ | _ | _ | _ | xs | _
          · rw [hall] at hok
            simp at hok
            subst hok
            refine accepts_ainsert_of_imp hall ?_ hacc
            intro h
            rfl
          · rw [hall] at hok
            simp at hok
            subst hok
            refine accepts_ainsert_of_imp hall ?_ hacc
            intro h
            rfl
          · rw [hall] at hok
            simp at hok
            subst hok
            refine accepts_ainsert_of_imp hall ?_ hacc
            intro h
            rfl
          · rw [hall] at hok
            simp at hok
            subst hok
            refine accepts_ainsert_of_imp hall ?_ hacc
            intro h
            rfl
          · rw [hall] at hok
            simp at hok
            subst hok
            refine accepts_ainsert_of_imp hall ?_ hacc
            intro h
            rw [schemaEntryOk_allOf_arr] at h ⊢
            rw [allOfAccepts_append, Bool.and_eq_true] at h
            exact h.1
          · rw [hall] at hok
            simp at hok
            subst hok
            refine accepts_ainsert_of_imp hall ?_ hacc
            intro h
            rfl
    -- multipleOf
    · have hkweq := mergeKind_eq_multipleOf hknd
      subst hkweq
      rcases existing with _ | _ | e | _ | _ | _ <;>
        rcases nv with _ | _ | n | _ | _ | _ <;>
        simp [toFloat64] at hok <;>
        try (subst hok; exact hacc)
      by_cases he : e = 0
      · simp [he] at hok
        subst hok
        exact hacc
      · simp [he] at hok
        rcases hdvd : ratMulDvd n e with _ | _
        · simp [hdvd] at hok
        · simp [hdvd] at hok
          subst hok
          refine accepts_ainsert_of_imp halk ?_ hacc
          rw [schemaEntryOk_not_allOf (by decide), schemaEntryOk_not_allOf (by decide),
            keywordAccepts_multipleOf, keywordAccepts_multipleOf]
          cases v <;> simp only [kwValueOk] <;> intro h <;> try trivial
          simp only [Bool.and_eq_true, bne_iff_ne, ne_eq] at h ⊢
          exact ⟨he, ratMulDvd_trans h.1 he h.2 hdvd⟩
    -- other keywords cannot occur
    · exact absurd hkw (mergeKind_otherKw_iff.mp hknd)

theorem mergeKeywords_tightens {re : String → String → Bool} {merged m' : JObj}
    {entries : JObj} {fp pid : String}
    (hkw : ∀ kw nv, (kw, nv) ∈ entries → kw ∈ mergeableKeywords)
    (hok : mergeKeywords merged entries fp pid = .ok m')
    {v : Json} (hacc : accepts re m' v = true) : accepts re merged v = true := by
  induction entries generalizing merged with
  | nil =>
    rw [mergeKeywords] at hok
    cases hok
    exact hacc
  | cons hd tl ih =>
    obtain ⟨kw, nv⟩ := hd
    rw [mergeKeywords] at hok
    rcases hstep : mergeKeyword merged fp pid kw nv with e | m1 <;> rw [hstep] at hok
    · cases hok
    · exact mergeKeyword_tightens (hkw kw nv (List.mem_cons_self _ _)) hstep
        (ih (fun kw' nv' h' => hkw kw' nv' (List.mem_cons_of_mem _ h')) hok)

/-- Fragment-level hypothesis for tightening: every keyword of every fragment
of the merged constraints map has a tightening merge rule. -/
def OnlyMergeableKeywords (m : List (String × Json)) : Prop :=
  ∀ p frag, (p, Json.obj frag) ∈ m → ∀ kw nv, (kw, nv) ∈ frag → kw ∈ mergeableKeywords

theorem mergeConstraintsStep_tightens {re : String → String → Bool}
    {c c1 : ConstraintContext} {p : String} {raw : Json} {pid : String}
    (hkw : ∀ frag, raw = Json.obj frag → ∀ kw nv, (kw, nv) ∈ frag → kw ∈ mergeableKeywords)
    (hok : mergeConstraintsStep c p raw pid = .ok c1)
    (fp : String) (v : Json)
    (hacc : acceptsPath re c1.fieldConstraints fp v = true) :
    acceptsPath re c.fieldConstraints fp v = true := by
  rcases raw with _ | _ | _ | _ | _ | frag
  case obj =>
    rw [mergeConstraintsStep] at hok
    split at hok
    · rename_i halk
      cases hok
      by_cases hfp : p = fp
      · subst hfp
        simp only [acceptsPath, halk]
      · simp only [acceptsPath] at hacc ⊢
        rwa [alookup_ainsert_ne _ _ hfp] at hacc
    · rename_i existing halk
      split at hok
      · cases hok
      · rename_i merged hmrg
        cases hok
        by_cases hfp : p = fp
        · subst hfp
          simp only [acceptsPath, alookup_ainsert_self] at hacc
          simp only [acceptsPath, halk]
          exact mergeKeywords_tightens
            (fun kw nv h' => hkw frag rfl kw nv h') hmrg hacc
        · simp only [acceptsPath] at hacc ⊢
          rwa [alookup_ainsert_ne _ _ hfp] at hacc
  all_goals
    (have hok2 : (Except.ok c : Except ConstraintConflictError ConstraintContext) = .ok c1 := hok;
     cases hok2; exact hacc)

theorem mergeConstraintsLoop_tightens {re : String → String → Bool}
    {c c' : ConstraintContext} {m : List (String × Json)} {pid : String}
    (hkw : OnlyMergeableKeywords m)
    (hok : mergeConstraintsLoop c m pid = .ok c')
    (fp : String) (v : Json)
    (hacc : acceptsPath re c'.fieldConstraints fp v = true) :
    acceptsPath re c.fieldConstraints fp v = true := by
  induction m generalizing c with
  | nil =>
    rw [mergeConstraintsLoop] at hok
    cases hok
    exact hacc
  | cons hd tl ih =>
    obtain ⟨p, raw⟩ := hd
    rw [mergeConstraintsLoop] at hok
    rcases hstep : mergeConstraintsStep c p raw pid with e | c1 <;> rw [hstep] at hok
    · cases hok
    · refine mergeConstraintsStep_tightens ?_ hstep fp v
        (ih (fun p' frag' h' => hkw p' frag' (List.mem_cons_of_mem _ h')) hok)
      intro frag hfrag kw nv hmem
      subst hfrag
      exact hkw p frag (List.mem_cons_self _ _) kw nv hmem

/-- A trivial regular-expression engine used to instantiate witnesses. -/
def reAll : String → String → Bool := fun _ _ => true

/-- A rule runtime that leaves every decision undefined, used in witnesses. -/
def oracleUndef : Oracle := fun _ _ => .ok none

/-- C1: when `EvaluateRequest` completes without error, the status is
APPROVED iff the final spec is structurally equal (order-independent for
mappings) to the original input, MODIFIED otherwise, and the response
carries the final spec and provider accumulated by the policy fold. -/
theorem evaluateRequest_final_status (re : String → String → Bool)
    (oracle : Oracle) (policies : List Policy) (req : EvaluationRequest)
    (resp : EvaluationResponse)
    (h : EvaluateRequest re oracle policies req = .ok resp) :
    (resp.status = .approved ↔ mapsEqual req.serviceInstance resp.evaluatedServiceInstance = true) ∧
    (resp.status = .modified ↔ mapsEqual req.serviceInstance resp.evaluatedServiceInstance = false) ∧
    ∃ c, evalFold re oracle req.requestLabels policies req.serviceInstance ""
      NewConstraintContext = .ok (resp.evaluatedServiceInstance, resp.selectedProvider, c) := by
  rw [EvaluateRequest] at h
  split at h
  · cases h
  · rename_i s pr c heq
    cases h
    by_cases hms : mapsEqual req.serviceInstance s = true
    · simp only [hms, if_pos]
      refine ⟨by simp [hms], by simp [hms], c, ?_⟩
      simpa using heq
    · rw [Bool.not_eq_true] at hms
      simp only [hms]
      refine ⟨by simp [hms], by simp [hms], c, ?_⟩
      simpa using heq

/-- Witness for C1 at a concrete input: the empty catalog approves the
request unchanged. -/
theorem evaluateRequest_final_status_witness :
    ∃ resp, EvaluateRequest reAll oracleUndef []
        ⟨[("service_type", Json.str "x")], [("service_type", "x")]⟩ = .ok resp ∧
      ((resp.status = .approved ↔
          mapsEqual [("service_type", Json.str "x")] resp.evaluatedServiceInstance = true) ∧
        (resp.status = .modified ↔
          mapsEqual [("service_type", Json.str "x")] resp.evaluatedServiceInstance = false) ∧
        ∃ c, evalFold reAll oracleUndef [("service_type", "x")] []
          [("service_type", Json.str "x")] "" NewConstraintContext =
            .ok (resp.evaluatedServiceInstance, resp.selectedProvider, c)) :=
  ⟨⟨[("service_type", Json.str "x")], "", .approved⟩, rfl,
    evaluateRequest_final_status reAll oracleUndef []
      ⟨[("service_type", Json.str "x")], [("service_type", "x")]⟩
      ⟨[("service_type", Json.str "x")], "", .approved⟩ rfl⟩

/-- C2 (amended): constraint merging is monotonically tightening for every
step whose fragments use only the keywords with a tightening merge rule
(`const`, `enum`, the numeric bounds, `multipleOf`, `pattern`); a keyword
outside this set — for example `allOf` — is overwritten by the new value
with no tightening check. -/
theorem mergeConstraints_tightening (re : String → String → Bool)
    {c c' : ConstraintContext} {m : List (String × Json)} {pid : String}
    (hkw : OnlyMergeableKeywords m)
    (hok : MergeConstraints c m pid = .ok c')
    (fp : String) (v : Json)
    (hacc : acceptsPath re c'.fieldConstraints fp v = true) :
    acceptsPath re c.fieldConstraints fp v = true :=
  mergeConstraintsLoop_tightens hkw hok fp v hacc

/-- Witness for C2 at a concrete input: tightening `minimum` from 1 to 2
leaves the accepted value 3 accepted before the step. -/
theorem mergeConstraints_tightening_witness :
    OnlyMergeableKeywords [("f", Json.obj [("minimum", Json.num 2)])] ∧
    acceptsPath reAll [("f", [("minimum", Json.num 1)])] "f" (Json.num 3) = true := by
  have hkw : OnlyMergeableKeywords [("f", Json.obj [("minimum", Json.num 2)])] := by
    intro p frag hm kw nv hf
    simp only [List.mem_singleton, Prod.mk.injEq, Json.obj.injEq] at hm
    rcases hm with ⟨rfl, rfl⟩
    simp only [List.mem_singleton, Prod.mk.injEq] at hf
    rcases hf with ⟨rfl, rfl⟩
    decide
  exact ⟨hkw,
    mergeConstraints_tightening reAll hkw
      (show MergeConstraints ⟨[("f", [("minimum", Json.num 1)])], [("f", "p1")], none⟩
          [("f", Json.obj [("minimum", Json.num 2)])] "p2" =
          .ok ⟨[("f", [("minimum", Json.num 2)])], [("f", "p1")], none⟩ from rfl)
      "f" (Json.num 3) rfl⟩

/-- Counterexample to C2 as stated: a fragment whose `allOf` keyword is
overwritten loosens the admissible set.  The context below is reachable
(merge a `pattern`, then a different `pattern`, then a fragment with a bare
`allOf`); here it is taken directly.  The step succeeds, the value 3 is
accepted on path f after the step and rejected before it. -/
theorem mergeConstraints_tightening_counterexample :
    ∃ c1, MergeConstraints
        ⟨[("f", [("allOf", Json.arr [Json.obj [("minimum", Json.num 5)]])])], [("f", "p1")], none⟩
        [("f", Json.obj [("allOf", Json.arr [])])] "p2" = .ok c1 ∧
      acceptsPath reAll c1.fieldConstraints "f" (Json.num 3) = true ∧
      acceptsPath reAll
        [("f", [("allOf", Json.arr [Json.obj [("minimum", Json.num 5)]])])] "f" (Json.num 3) = false :=
  ⟨_, rfl, rfl, rfl⟩

theorem mergeKind_min_iff {kw : String} : mergeKind kw = .minKw ↔ kw ∈ minKeywords := by
  constructor
  · intro h
    rcases mergeKind_eq_min h with rfl | rfl | rfl | rfl | rfl <;> decide
  · intro h
    simp only [minKeywords, List.mem_cons, List.not_mem_nil, or_false] at h
    rcases h with rfl | rfl | rfl | rfl | rfl <;> rfl

theorem mergeKind_max_iff {kw : String} : mergeKind kw = .maxKw ↔ kw ∈ maxKeywords := by
  constructor
  · intro h
    rcases mergeKind_eq_max h with rfl | rfl | rfl | rfl | rfl <;> decide
  · intro h
    simp only [maxKeywords, List.mem_cons, List.not_mem_nil, or_false] at h
    rcases h with rfl | rfl | rfl | rfl | rfl <;> rfl

/-- C4: for an existing field path whose fragment holds a numeric value for
a bound keyword, merging a fragment carrying a numeric value for the same
bound keyword fails with a ConstraintConflict carrying the field path and
the set_by policy of the existing constraint exactly when the new value
loosens the bound, and otherwise stores the max (for the lower bounds,
exclusiveMinimum included) or the min (for the upper bounds,
exclusiveMaximum included). -/
theorem mergeConstraints_bound_merge (c : ConstraintContext) (fp kw pid : String)
    (frag : JObj) (e n : ℚ)
    (hkw : kw ∈ minKeywords ∨ kw ∈ maxKeywords)
    (hfrag : alookup c.fieldConstraints fp = some frag)
    (hex : alookup frag kw = some (.num e)) :
    ((∃ reason, MergeConstraints c [(fp, .obj [(kw, .num n)])] pid =
        .error ⟨fp, (alookup c.setBy fp).getD "", reason⟩) ↔
      (if kw ∈ minKeywords then n < e else e < n)) ∧
    (¬ (if kw ∈ minKeywords then n < e else e < n) →
      MergeConstraints c [(fp, .obj [(kw, .num n)])] pid =
        .ok { c with fieldConstraints := ainsert fp (ainsert kw (.num (if kw ∈ minKeywords then max e n else min e n)) frag) c.fieldConstraints }) := by
  have hmem : kw ∈ minKeywords ∨ (kw ∉ minKeywords ∧ kw ∈ maxKeywords) := by
    rcases hkw with h | h
    · exact Or.inl h
    · by_cases hm : kw ∈ minKeywords
      · exact Or.inl hm
      · exact Or.inr ⟨hm, h⟩
  rcases hmem with hmin | ⟨hnotmin, hmax⟩
  · have hknd : mergeKind kw = .minKw := mergeKind_min_iff.mpr hmin
    by_cases hlt : n < e
    · have hmk : mergeKeyword frag fp ((alookup c.setBy fp).getD "") kw (.num n) =
          .error ⟨fp, (alookup c.setBy fp).getD "",
            "cannot loosen " ++ kw ++ " constraint on field " ++ fp⟩ := by
        rw [mergeKeyword, hex, hknd]
        simp [toFloat64, hlt]
      have hfin : MergeConstraints c [(fp, .obj [(kw, .num n)])] pid =
          .error ⟨fp, (alookup c.setBy fp).getD "",
            "cannot loosen " ++ kw ++ " constraint on field " ++ fp⟩ := by
        rw [MergeConstraints, mergeConstraintsLoop, mergeConstraintsStep, hfrag]
        simp only [mergeSchemaKeywords, mergeKeywords, hmk]
      refine ⟨⟨fun _ => by simpa [hmin] using hlt, fun _ => ⟨_, hfin⟩⟩, fun hc => ?_⟩
      exact absurd (by simpa [hmin] using hlt) hc
    · have hmk : mergeKeyword frag fp ((alookup c.setBy fp).getD "") kw (.num n) =
          .ok (ainsert kw (.num (max e n)) frag) := by
        rw [mergeKeyword, hex, hknd]
        simp [toFloat64, hlt]
      have hfin : MergeConstraints c [(fp, .obj [(kw, .num n)])] pid =
          .ok { c with fieldConstraints := ainsert fp (ainsert kw (.num (max e n)) frag) c.fieldConstraints } := by
        rw [MergeConstraints, mergeConstraintsLoop, mergeConstraintsStep, hfrag]
        simp only [mergeSchemaKeywords, mergeKeywords, hmk, mergeConstraintsLoop]
      constructor
      · rw [hfin]
        constructor
        · rintro ⟨reason, hr⟩
          cases hr
        · intro hcond
          exact absurd (by simpa [hmin] using hcond) hlt
      · intro _
        rw [hfin]
        simp [hmin]
  · have hknd : mergeKind kw = .maxKw := mergeKind_max_iff.mpr hmax
    by_cases hlt : e < n
    · have hmk : mergeKeyword frag fp ((alookup c.setBy fp).getD "") kw (.num n) =
          .error ⟨fp, (alookup c.setBy fp).getD "",
            "cannot loosen " ++ kw ++ " constraint on field " ++ fp⟩ := by
        rw [mergeKeyword, hex, hknd]
        simp [toFloat64, hlt]
      have hfin : MergeConstraints c [(fp, .obj [(kw, .num n)])] pid =
          .error ⟨fp, (alookup c.setBy fp).getD "",
            "cannot loosen " ++ kw ++ " constraint on field " ++ fp⟩ := by
        rw [MergeConstraints, mergeConstraintsLoop, mergeConstraintsStep, hfrag]
        simp only [mergeSchemaKeywords, mergeKeywords, hmk]
      refine ⟨⟨fun _ => by simpa [hnotmin] using hlt, fun _ => ⟨_, hfin⟩⟩, fun hc => ?_⟩
      exact absurd (by simpa [hnotmin] using hlt) hc
    · have hmk : mergeKeyword frag fp ((alookup c.setBy fp).getD "") kw (.num n) =
          .ok (ainsert kw (.num (min e n)) frag) := by
        rw [mergeKeyword, hex, hknd]
        simp [toFloat64, hlt]
      have hfin : MergeConstraints c [(fp, .obj [(kw, .num n)])] pid =
          .ok { c with fieldConstraints := ainsert fp (ainsert kw (.num (min e n)) frag) c.fieldConstraints } := by
        rw [MergeConstraints, mergeConstraintsLoop, mergeConstraintsStep, hfrag]
        simp only [mergeSchemaKeywords, mergeKeywords, hmk, mergeConstraintsLoop]
      constructor
      · rw [hfin]
        constructor
        · rintro ⟨reason, hr⟩
          cases hr
        · intro hcond
          exact absurd (by simpa [hnotmin] using hcond) hlt
      · intro _
        rw [hfin]
        simp [hnotmin]

/-- Witness for C4 at a concrete input: an existing minimum of 2 rejects a
new minimum of 1 with a conflict blaming the setting policy. -/
theorem mergeConstraints_bound_merge_witness :
    ((∃ reason, MergeConstraints ⟨[("cpu", [("minimum", Json.num 2)])], [("cpu", "p1")], none⟩
        [("cpu", .obj [("minimum", Json.num 1)])] "p2" =
        .error ⟨"cpu", (alookup [("cpu", "p1")] "cpu").getD "", reason⟩) ↔
      (if "minimum" ∈ minKeywords then (1 : ℚ) < 2 else (2 : ℚ) < 1)) ∧
    (¬ (if "minimum" ∈ minKeywords then (1 : ℚ) < 2 else (2 : ℚ) < 1) →
      MergeConstraints ⟨[("cpu", [("minimum", Json.num 2)])], [("cpu", "p1")], none⟩
        [("cpu", .obj [("minimum", Json.num 1)])] "p2" =
        .ok ⟨ainsert "cpu" (ainsert "minimum" (Json.num (if "minimum" ∈ minKeywords then max 2 1 else min 2 1)) [("minimum", Json.num 2)]) [("cpu", [("minimum", Json.num 2)])], [("cpu", "p1")], none⟩) :=
  mergeConstraints_bound_merge ⟨[("cpu", [("minimum", Json.num 2)])], [("cpu", "p1")], none⟩
    "cpu" "minimum" "p2" [("minimum", Json.num 2)] 2 1 (Or.inl (by decide)) rfl rfl

/-- C9: evaluating `ParsePolicyDecision` (src/internal/opa/evaluation.go) at
a result whose `service_provider_constraints` carries a `patterns` list: the
parser reads only the singular `pattern` key, so the listed patterns are
dropped — the parsed constraints hold no pattern at all — contradicting the
package's own unit test, which expects `patterns` to be parsed, and the
spec, which says implementations should accept `patterns: [string]`. -/
theorem parsePolicyDecision_drops_patterns :
    opa.ParsePolicyDecision
      [("service_provider_constraints",
        .obj [("patterns", .arr [.str "^(aws|gcp)$"])])] =
    { rejected := false, rejectionReason := "", patch := none, constraints := none,
      serviceProviderConstraints := some ⟨[], ""⟩, selectedProvider := "" } := rfl

theorem fieldViolations_nil_iff {re : String → String → Bool}
    {fc : List (String × JObj)} {sb : List (String × String)}
    {fieldPath : String} {value : Json} :
    fieldViolations re fc sb fieldPath value = [] ↔
      acceptsPath re fc fieldPath value = true := by
  rw [fieldViolations, acceptsPath]
  rcases alookup fc fieldPath with _ | frag
  · simp
  · rcases hv : accepts re frag value with _ | _ <;> simp [hv]

mutual
theorem validatePatchRec_nil_iff (re : String → String → Bool)
    (fc : List (String × JObj)) (sb : List (String × String)) :
    ∀ (pfx : String) (patch : JObj),
    (validatePatchRec re fc sb pfx patch = [] ↔
      ∀ fp v, (fp, v) ∈ patchFields pfx patch → acceptsPath re fc fp v = true)
  | pfx, [] => by simp [validatePatchRec, patchFields]
  | pfx, (key, value) :: rest => by
    have hE := validatePatchEntry_nil_iff re fc sb
      (if pfx = "" then key else pfx ++ "." ++ key) value
    have hR := validatePatchRec_nil_iff re fc sb pfx rest
    rw [validatePatchRec, patchFields]
    simp only [List.append_eq_nil, List.mem_cons, List.mem_append]
    constructor
    · rintro ⟨⟨h1, h2⟩, h3⟩ fp v hm
      rcases hm with (hm | hm) | hm
      · cases hm
        exact fieldViolations_nil_iff.mp h1
      · exact (hE.mp h2) fp v hm
      · exact (hR.mp h3) fp v hm
    · intro hall
      exact ⟨⟨fieldViolations_nil_iff.mpr (hall _ _ (Or.inl (Or.inl rfl))),
        hE.mpr fun fp v hm => hall fp v (Or.inl (Or.inr hm))⟩,
        hR.mpr fun fp v hm => hall fp v (Or.inr hm)⟩
theorem validatePatchEntry_nil_iff (re : String → String → Bool)
    (fc : List (String × JObj)) (sb : List (String × String)) :
    ∀ (fieldPath : String) (value : Json),
    (validatePatchEntry re fc sb fieldPath value = [] ↔
      ∀ fp v, (fp, v) ∈ patchFieldsEntry fieldPath value → acceptsPath re fc fp v = true)
  | fieldPath, .obj nested => by
    have h := validatePatchRec_nil_iff re fc sb fieldPath nested
    rw [validatePatchEntry, patchFieldsEntry]
    exact h
  | fieldPath, .null => by simp [validatePatchEntry, patchFieldsEntry]
  | fieldPath, .bool _ => by simp [validatePatchEntry, patchFieldsEntry]
  | fieldPath, .num _ => by simp [validatePatchEntry, patchFieldsEntry]
  | fieldPath, .str _ => by simp [validatePatchEntry, patchFieldsEntry]
  | fieldPath, .arr _ => by simp [validatePatchEntry, patchFieldsEntry]
end

/-- C3 (amended): after a policy step of `EvaluateRequest` that completes
without error, the step's patch — when one is present — passes validation
against the accumulated constraints: every field of the patch (nested
fields included) whose dotted path carries a constraint is accepted by the
stored fragment, and the new spec is the merge of the patch into the old
one.  Constraints on paths the patch does not touch, and values already
present in the instance before the constraint was merged, are not checked
by any part of the evaluator. -/
theorem evaluatePolicy_patch_validated (re : String → String → Bool)
    (oracle : Oracle) (policy : Policy) (currentSpec : JObj)
    (selectedProvider : String) (c : ConstraintContext) (d : PolicyDecision)
    (patch : JObj) (s' : JObj) (p' : String) (c' : ConstraintContext)
    (hor : oracle policy (buildOpaInput c currentSpec selectedProvider) = .ok (some d))
    (hpatch : d.patch = some patch)
    (hok : evaluatePolicy re oracle policy currentSpec selectedProvider c = .ok (s', p', c')) :
    ValidatePatch re c' patch = [] ∧
    (∀ fp v, (fp, v) ∈ patchFields "" patch → acceptsPath re c'.fieldConstraints fp v = true) ∧
    s' = mergePatch currentSpec patch := by
  rw [evaluatePolicy, hor] at hok
  split at hok
  · rename_i heq
    cases heq
  · rename_i heq
    simp at heq
  · rename_i dec heq
    injection heq with heq1
    injection heq1 with heq2
    subst heq2
    split at hok
    · cases hok
    · split at hok
      · cases hok
      · rename_i c1 hc1
        split at hok
        · cases hok
        · rename_i c2 hc2
          rw [hpatch] at hok
          split at hok
          · cases hok
          · rename_i newSpec hns
            split at hns
            · rename_i heqn
              cases heqn
            · rename_i p2 heqp
              injection heqp with heqp2
              subst heqp2
              split at hns
              · rename_i hemp
                injection hns with hns2
                subst hns2
                have hvp : ValidatePatch re c2 patch = [] := List.isEmpty_iff.mp hemp
                have hfields := (validatePatchRec_nil_iff re c2.fieldConstraints c2.setBy "" patch).mp hvp
                split at hok
                · cases hok
                  exact ⟨hvp, hfields, rfl⟩
                · split at hok
                  · cases hok
                  · cases hok
                    exact ⟨hvp, hfields, rfl⟩
              · cases hns

/-- Witness for C3 at a concrete input: a policy that sets a `const`
constraint on `region` together with a matching patch; the step succeeds
and the patch passes validation against the tightened store. -/
theorem evaluatePolicy_patch_validated_witness :
    ∃ s' c', evaluatePolicy reAll
        (fun _ _ => .ok (some ⟨false, "", some [("region", .str "us-east-1")],
          some [("region", .obj [("const", .str "us-east-1")])], none, ""⟩))
        ⟨"p1", [], "pkg"⟩ [("service_type", .str "x")] "" NewConstraintContext =
          .ok (s', "", c') ∧
      (ValidatePatch reAll c' [("region", .str "us-east-1")] = [] ∧
        (∀ fp v, (fp, v) ∈ patchFields "" [("region", Json.str "us-east-1")] →
          acceptsPath reAll c'.fieldConstraints fp v = true) ∧
        s' = mergePatch [("service_type", .str "x")] [("region", .str "us-east-1")]) :=
  ⟨_, _, rfl,
    evaluatePolicy_patch_validated reAll
      (fun _ _ => .ok (some ⟨false, "", some [("region", .str "us-east-1")],
        some [("region", .obj [("const", .str "us-east-1")])], none, ""⟩))
      ⟨"p1", [], "pkg"⟩ [("service_type", .str "x")] "" NewConstraintContext
      ⟨false, "", some [("region", .str "us-east-1")],
        some [("region", .obj [("const", .str "us-east-1")])], none, ""⟩
      [("region", .str "us-east-1")] _ _ _ rfl rfl rfl⟩

/-- Counterexample to C3 as stated: a policy that merges a `minimum 2`
constraint on `cpu` with no patch succeeds although the current instance
already holds `cpu = 1`; after the step the instance violates the
accumulated constraints and nothing in the evaluator checks it. -/
theorem evaluatePolicy_patch_validated_counterexample :
    ∃ c', evaluatePolicy reAll
        (fun _ _ => .ok (some ⟨false, "", none,
          some [("cpu", .obj [("minimum", .num 2)])], none, ""⟩))
        ⟨"p1", [], "pkg"⟩ [("cpu", .num 1)] "" NewConstraintContext =
        .ok ([("cpu", .num 1)], "", c') ∧
      instanceSatisfies reAll [("cpu", .num 1)] c'.fieldConstraints = false :=
  ⟨_, rfl, rfl⟩

theorem keysNodup_mergePatchEntry {base : JObj} {k : String} {pv : Json}
    (hb : KeysNodup base) : KeysNodup (mergePatchEntry base k pv) := by
  cases pv
  case null => exact keysNodup_aerase _ hb
  case obj pkvs =>
    rw [mergePatchEntry]
    split
    · exact keysNodup_ainsert _ _ hb
    · exact keysNodup_ainsert _ _ hb
  all_goals exact keysNodup_ainsert _ _ hb

theorem alookup_mergePatchEntry_ne {base : JObj} {k k' : String} {pv : Json}
    (h : k ≠ k') : alookup (mergePatchEntry base k pv) k' = alookup base k' := by
  cases pv
  case null => exact alookup_aerase_ne _ h
  case obj pkvs =>
    rw [mergePatchEntry]
    split
    · exact alookup_ainsert_ne _ _ h
    · exact alookup_ainsert_ne _ _ h
  all_goals exact alookup_ainsert_ne _ _ h

theorem mergePatchEntry_obj_none {base : JObj} {k : String} {pkvs : JObj}
    (h : alookup base k = none) :
    mergePatchEntry base k (.obj pkvs) = ainsert k (.obj pkvs) base := by
  rw [mergePatchEntry, h]

theorem mergePatchEntry_obj_obj {base : JObj} {k : String} {pkvs bkvs : JObj}
    (h : alookup base k = some (.obj bkvs)) :
    mergePatchEntry base k (.obj pkvs) = ainsert k (.obj (mergePatch bkvs pkvs)) base := by
  rw [mergePatchEntry, h]

theorem mergePatchEntry_obj_other {base : JObj} {k : String} {pkvs : JObj} {bv : Json}
    (h : alookup base k = some bv) (hbv : ∀ bkvs, bv ≠ .obj bkvs) :
    mergePatchEntry base k (.obj pkvs) = ainsert k (.obj pkvs) base := by
  rw [mergePatchEntry, h]
  rcases bv with _ | _ | _ | _ | _ | bkvs
  case obj => exact absurd rfl (hbv bkvs)
  all_goals rfl

/-- C5 (amended): `mergePatch` follows RFC 7396 JSON Merge Patch key by key
at each level.  For every key of the patch: a null value deletes the key
from the result, a mapping value over a mapping base value merges
recursively, and any other value (scalar, array, or mapping over a
non-mapping or absent base value) replaces the base value — the mapping is
inserted verbatim, so null members nested inside it survive into the
result, contrary to the null stripping RFC 7396 requires; keys the patch
does not mention keep their base value. -/
theorem mergePatch_rfc7396 (base patch : JObj) (hb : KeysNodup base)
    (hp : KeysNodup patch) (k : String) :
    (match alookup patch k with
     | some .null => alookup (mergePatch base patch) k = none
     | some (.obj pk) =>
       (match alookup base k with
        | some (.obj bk) => alookup (mergePatch base patch) k = some (.obj (mergePatch bk pk))
        | _ => alookup (mergePatch base patch) k = some (.obj pk))
     | some v => alookup (mergePatch base patch) k = some v
     | none => alookup (mergePatch base patch) k = alookup base k) := by
  induction patch generalizing base with
  | nil =>
    simp [alookup, mergePatch]
  | cons hd rest ih =>
    obtain ⟨k0, pv⟩ := hd
    rw [KeysNodup, List.map_cons, List.nodup_cons] at hp
    have hb' : KeysNodup (mergePatchEntry base k0 pv) := keysNodup_mergePatchEntry hb
    have IH := ih (mergePatchEntry base k0 pv) hb' hp.2
    have hmp : mergePatch base ((k0, pv) :: rest) = mergePatch (mergePatchEntry base k0 pv) rest := by
      cases pv <;> rfl
    by_cases hk : k0 = k
    · subst hk
      have hrest : alookup rest k0 = none := alookup_eq_none_of_not_mem hp.1
      rw [hrest] at IH
      rw [hmp]
      have hlk : alookup ((k0, pv) :: rest) k0 = some pv := by
        rw [alookup, if_pos rfl]
      rw [hlk]
      have IH2 : alookup (mergePatch (mergePatchEntry base k0 pv) rest) k0 =
          alookup (mergePatchEntry base k0 pv) k0 := IH
      rcases pv with _ | b | q | sv | xs | pkvs
      · show alookup (mergePatch (mergePatchEntry base k0 .null) rest) k0 = none
        rw [IH2]
        exact alookup_aerase_self hb
      · show alookup (mergePatch (mergePatchEntry base k0 (.bool b)) rest) k0 = some (.bool b)
        rw [IH2]
        exact alookup_ainsert_self _ _ _
      · show alookup (mergePatch (mergePatchEntry base k0 (.num q)) rest) k0 = some (.num q)
        rw [IH2]
        exact alookup_ainsert_self _ _ _
      · show alookup (mergePatch (mergePatchEntry base k0 (.str sv)) rest) k0 = some (.str sv)
        rw [IH2]
        exact alookup_ainsert_self _ _ _
      · show alookup (mergePatch (mergePatchEntry base k0 (.arr xs)) rest) k0 = some (.arr xs)
        rw [IH2]
        exact alookup_ainsert_self _ _ _
      · show (match alookup base k0 with
              | some (.obj bk) =>
                alookup (mergePatch (mergePatchEntry base k0 (.obj pkvs)) rest) k0 =
                  some (.obj (mergePatch bk pkvs))
              | _ =>
                alookup (mergePatch (mergePatchEntry base k0 (.obj pkvs)) rest) k0 =
                  some (.obj pkvs))
        rcases hbase : alookup base k0 with _ | bv
        · show alookup (mergePatch (mergePatchEntry base k0 (.obj pkvs)) rest) k0 =
            some (.obj pkvs)
          rw [IH2, mergePatchEntry_obj_none hbase]
          exact alookup_ainsert_self _ _ _
        · rcases bv with _ | _ | _ | _ | _ | bkvs
          · show alookup (mergePatch (mergePatchEntry base k0 (.obj pkvs)) rest) k0 =
              some (.obj pkvs)
            rw [IH2, mergePatchEntry_obj_other hbase (by intro _ hcon; cases hcon)]
            exact alookup_ainsert_self _ _ _
          · show alookup (mergePatch (mergePatchEntry base k0 (.obj pkvs)) rest) k0 =
              some (.obj pkvs)
            rw [IH2, mergePatchEntry_obj_other hbase (by intro _ hcon; cases hcon)]
            exact alookup_ainsert_self _ _ _
          · show alookup (mergePatch (mergePatchEntry base k0 (.obj pkvs)) rest) k0 =
              some (.obj pkvs)
            rw [IH2, mergePatchEntry_obj_other hbase (by intro _ hcon; cases hcon)]
            exact alookup_ainsert_self _ _ _
          · show alookup (mergePatch (mergePatchEntry base k0 (.obj pkvs)) rest) k0 =
              some (.obj pkvs)
            rw [IH2, mergePatchEntry_obj_other hbase (by intro _ hcon; cases hcon)]
            exact alookup_ainsert_self _ _ _
          · show alookup (mergePatch (mergePatchEntry base k0 (.obj pkvs)) rest) k0 =
              some (.obj pkvs)
            rw [IH2, mergePatchEntry_obj_other hbase (by intro _ hcon; cases hcon)]
            exact alookup_ainsert_self _ _ _
          · show alookup (mergePatch (mergePatchEntry base k0 (.obj pkvs)) rest) k0 =
              some (.obj (mergePatch bkvs pkvs))
            rw [IH2, mergePatchEntry_obj_obj hbase]
            exact alookup_ainsert_self _ _ _
    · have hlk : alookup ((k0, pv) :: rest) k = alookup rest k := by
        rw [alookup, if_neg hk]
      have hbase' : alookup (mergePatchEntry base k0 pv) k = alookup base k :=
        alookup_mergePatchEntry_ne hk
      rw [hlk, hmp]
      rw [hbase'] at IH
      exact IH

/-- Witness for C5 at a concrete input: deletion, recursive merge and
replacement on a two-key document. -/
theorem mergePatch_rfc7396_witness :
    (match alookup [("a", Json.obj [("y", Json.null), ("z", Json.num 3)]), ("b", Json.num 7)] "a" with
     | some .null => alookup (mergePatch
         [("a", Json.obj [("x", Json.num 1), ("y", Json.num 2)]), ("b", Json.str "s")]
         [("a", Json.obj [("y", Json.null), ("z", Json.num 3)]), ("b", Json.num 7)]) "a" = none
     | some (.obj pk) =>
       (match alookup [("a", Json.obj [("x", Json.num 1), ("y", Json.num 2)]), ("b", Json.str "s")] "a" with
        | some (.obj bk) => alookup (mergePatch
            [("a", Json.obj [("x", Json.num 1), ("y", Json.num 2)]), ("b", Json.str "s")]
            [("a", Json.obj [("y", Json.null), ("z", Json.num 3)]), ("b", Json.num 7)]) "a" =
              some (.obj (mergePatch bk pk))
        | _ => alookup (mergePatch
            [("a", Json.obj [("x", Json.num 1), ("y", Json.num 2)]), ("b", Json.str "s")]
            [("a", Json.obj [("y", Json.null), ("z", Json.num 3)]), ("b", Json.num 7)]) "a" =
              some (.obj pk))
     | some v => alookup (mergePatch
         [("a", Json.obj [("x", Json.num 1), ("y", Json.num 2)]), ("b", Json.str "s")]
         [("a", Json.obj [("y", Json.null), ("z", Json.num 3)]), ("b", Json.num 7)]) "a" = some v
     | none => alookup (mergePatch
         [("a", Json.obj [("x", Json.num 1), ("y", Json.num 2)]), ("b", Json.str "s")]
         [("a", Json.obj [("y", Json.null), ("z", Json.num 3)]), ("b", Json.num 7)]) "a" =
           alookup [("a", Json.obj [("x", Json.num 1), ("y", Json.num 2)]), ("b", Json.str "s")] "a") :=
  mergePatch_rfc7396
    [("a", Json.obj [("x", Json.num 1), ("y", Json.num 2)]), ("b", Json.str "s")]
    [("a", Json.obj [("y", Json.null), ("z", Json.num 3)]), ("b", Json.num 7)]
    (by unfold KeysNodup; decide) (by unfold KeysNodup; decide) "a"

/-- Counterexample to C5 as stated: RFC 7396 requires that null members of
the patch never appear as entries of the result (its Appendix A merges the
patch a.bb.ccc = null into the empty document to a value whose bb mapping
is empty), but a mapping patch value landing on an absent base key is
inserted verbatim by `mergePatch`, and the nested null member ccc appears
as an entry of the result. -/
theorem mergePatch_rfc7396_counterexample :
    mergePatch [] [("a", Json.obj [("bb", Json.obj [("ccc", Json.null)])])] =
      [("a", Json.obj [("bb", Json.obj [("ccc", Json.null)])])] ∧
    alookup (mergePatch [] [("a", Json.obj [("bb", Json.obj [("ccc", Json.null)])])])
      "a" = some (Json.obj [("bb", Json.obj [("ccc", Json.null)])]) :=
  ⟨rfl, rfl⟩

theorem evalFold_append_ok {re : String → String → Bool} {oracle : Oracle}
    {labels : List (String × String)} {l1 : List Policy} {s s' : JObj}
    {p p' : String} {c c' : ConstraintContext}
    (h : evalFold re oracle labels l1 s p c = .ok (s', p', c')) (l2 : List Policy) :
    evalFold re oracle labels (l1 ++ l2) s p c = evalFold re oracle labels l2 s' p' c' := by
  induction l1 generalizing s p c with
  | nil =>
    rw [evalFold] at h
    cases h
    rfl
  | cons hd tl ih =>
    rw [evalFold] at h
    rw [List.cons_append, evalFold]
    by_cases hm : MatchesLabelSelector hd.labelSelector labels = true
    · rw [if_pos hm] at h ⊢
      rcases hev : evaluatePolicy re oracle hd s p c with e | ⟨s1, p1, c1⟩ <;> rw [hev] at h
      · cases h
      · exact ih h
    · rw [Bool.not_eq_true] at hm
      rw [hm] at h ⊢
      simp only [Bool.false_eq_true, if_false] at h ⊢
      exact ih h

/-- C6: a policy whose parsed decision is a rejection makes the whole
evaluation fail with a Rejected error carrying that policy's id and the
decision's rejection reason; the failure is terminal and atomic — the
rejection check precedes every merge and patch of the step, no later
policy is evaluated (the conclusion holds for every tail of the catalog),
and the error carries no service instance. -/
theorem evaluateRequest_rejection_terminal (re : String → String → Bool)
    (oracle : Oracle) (pre post : List Policy) (P : Policy)
    (req : EvaluationRequest) (s : JObj) (p : String) (c : ConstraintContext)
    (d : PolicyDecision)
    (hpre : evalFold re oracle req.requestLabels pre req.serviceInstance ""
      NewConstraintContext = .ok (s, p, c))
    (hmatch : MatchesLabelSelector P.labelSelector req.requestLabels = true)
    (hor : oracle P (buildOpaInput c s p) = .ok (some d))
    (hrej : d.rejected = true) :
    EvaluateRequest re oracle (pre ++ P :: post) req =
      .error (.policyRejected P.id d.rejectionReason) := by
  have hstep : evaluatePolicy re oracle P s p c =
      .error (.policyRejected P.id d.rejectionReason) := by
    rw [evaluatePolicy, hor]
    simp [hrej]
  rw [EvaluateRequest, evalFold_append_ok hpre, evalFold, if_pos hmatch, hstep]

/-- Witness for C6 at a concrete input: a single rejecting policy fails the
whole request with its id and reason. -/
theorem evaluateRequest_rejection_terminal_witness :
    EvaluateRequest reAll (fun _ _ => .ok (some ⟨true, "policy violation", none, none, none, ""⟩))
      ([] ++ ⟨"p1", [], "pkg"⟩ :: [⟨"p2", [], "pkg2"⟩])
      ⟨[("service_type", Json.str "x")], [("service_type", "x")]⟩ =
      .error (.policyRejected "p1" "policy violation") :=
  evaluateRequest_rejection_terminal reAll
    (fun _ _ => .ok (some ⟨true, "policy violation", none, none, none, ""⟩))
    [] [⟨"p2", [], "pkg2"⟩] ⟨"p1", [], "pkg"⟩
    ⟨[("service_type", Json.str "x")], [("service_type", "x")]⟩
    [("service_type", Json.str "x")] "" NewConstraintContext
    ⟨true, "policy violation", none, none, none, ""⟩ rfl rfl rfl rfl

theorem mem_keys_stringEntries {labels : JObj} {k : String}
    (h : k ∈ (stringEntries labels).map Prod.fst) : k ∈ labels.map Prod.fst := by
  induction labels with
  | nil => simp [stringEntries] at h
  | cons hd tl ih =>
    obtain ⟨k0, v0⟩ := hd
    rw [List.map_cons, List.mem_cons]
    rcases v0 with _ | _ | _ | sv | _ | _ <;>
      simp only [stringEntries, List.filterMap_cons] at h ih <;>
      first
        | (exact Or.inr (ih h))
        | (rw [List.map_cons, List.mem_cons] at h
           rcases h with h | h
           · exact Or.inl h
           · exact Or.inr (ih h))

theorem extractLabels_fold_lookup (labels : JObj) (hnd : KeysNodup labels)
    (base : List (String × String)) (k : String) :
    alookup (labels.foldl (fun result kv =>
      match kv.2 with
      | .str s => ainsert kv.1 s result
      | _ => result) base) k =
    (match alookup (stringEntries labels) k with
     | some v => some v
     | none => alookup base k) := by
  induction labels generalizing base with
  | nil => simp [stringEntries, alookup]
  | cons hd tl ih =>
    obtain ⟨k0, v0⟩ := hd
    rw [KeysNodup, List.map_cons, List.nodup_cons] at hnd
    rw [List.foldl_cons]
    rcases v0 with _ | b | q | sv | xs | kvs
    case str =>
      rw [ih hnd.2 (ainsert k0 sv base)]
      by_cases hk : k0 = k
      · subst hk
        have hse : alookup (stringEntries tl) k0 = none := by
          apply alookup_eq_none_of_not_mem
          intro hc
          exact hnd.1 (mem_keys_stringEntries hc)
        rw [hse]
        have hse2 : alookup (stringEntries ((k0, Json.str sv) :: tl)) k0 = some sv := by
          simp only [stringEntries, List.filterMap_cons]
          rw [alookup, if_pos rfl]
        rw [hse2, alookup_ainsert_self]
      · have hse2 : alookup (stringEntries ((k0, Json.str sv) :: tl)) k =
            alookup (stringEntries tl) k := by
          simp only [stringEntries, List.filterMap_cons]
          rw [alookup, if_neg hk]
        rw [hse2, alookup_ainsert_ne _ _ hk]
    all_goals
      (rw [ih hnd.2 base]
       rfl)

/-- C7: a policy is invoked during evaluation iff its label selector is a
subset of the request labels extracted from the service instance — every
selector pair must appear with an equal value, the extracted labels are the
`service_type` entry plus the string-valued entries of `metadata.labels`
(non-string label values are dropped, labels override the `service_type`
entry on a key collision, extra labels are allowed, and the empty selector
matches every request) — and a policy whose selector does not match is
skipped with no change to the evaluation state. -/
theorem labelSelector_gating (spec : JObj) (L : List (String × String))
    (hex : extractRequestLabels spec = .ok L)
    (hnd : KeysNodup (metadataLabels spec)) :
    (∀ S, MatchesLabelSelector S L = true ↔ ∀ kv ∈ S, alookup L kv.1 = some kv.2) ∧
    (∃ st, alookup spec "service_type" = some (.str st) ∧
      ∀ k, alookup L k =
        (match alookup (stringEntries (metadataLabels spec)) k with
         | some v => some v
         | none => if k = "service_type" then some st else none)) ∧
    (∀ re oracle P rest s p c, MatchesLabelSelector P.labelSelector L = false →
      evalFold re oracle L (P :: rest) s p c = evalFold re oracle L rest s p c) := by
  refine ⟨?_, ?_, ?_⟩
  · intro S
    simp [MatchesLabelSelector, List.all_eq_true]
  · rw [extractRequestLabels] at hex
    rcases hst : alookup spec "service_type" with _ | stv <;> rw [hst] at hex
    · cases hex
    · rcases stv with _ | _ | _ | st | _ | _
      case str =>
        refine ⟨st, rfl, fun k => ?_⟩
        injection hex with hex2
        subst hex2
        have hml : (match alookup spec "metadata" with
                    | some (Json.obj metadata) =>
                      (match alookup metadata "labels" with
                       | some (Json.obj ls) => ls
                       | _ => [])
                    | _ => []) = metadataLabels spec := rfl
        rw [hml, extractLabels_fold_lookup (metadataLabels spec) hnd [("service_type", st)] k]
        rcases alookup (stringEntries (metadataLabels spec)) k with _ | v
        · by_cases hk : k = "service_type"
          · subst hk
            rw [if_pos rfl]
            rw [alookup, if_pos rfl]
          · rw [if_neg hk, alookup, if_neg (fun hc => hk hc.symm)]
            rfl
        · rfl
      all_goals cases hex
  · intro re oracle P rest s p c hm
    rw [evalFold, hm]
    simp

/-- Witness for C7 at a concrete input: labels extracted from a service
instance with one string label and one non-string label, and the selector
subset characterization at those labels. -/
theorem labelSelector_gating_witness :
    extractRequestLabels [("service_type", Json.str "x"),
        ("metadata", Json.obj [("labels", Json.obj [("env", Json.str "prod"), ("n", Json.num 1)])])] =
      .ok [("service_type", "x"), ("env", "prod")] ∧
    (∀ S, MatchesLabelSelector S [("service_type", "x"), ("env", "prod")] = true ↔
      ∀ kv ∈ S, alookup [("service_type", "x"), ("env", "prod")] kv.1 = some kv.2) :=
  ⟨rfl,
    (labelSelector_gating
      [("service_type", Json.str "x"),
        ("metadata", Json.obj [("labels", Json.obj [("env", Json.str "prod"), ("n", Json.num 1)])])]
      [("service_type", "x"), ("env", "prod")] rfl
      (by unfold KeysNodup; decide)).1⟩

/-- C8: provider binding.  Validation trivially succeeds when no service
provider constraints have been accumulated and for the empty provider; a
non-empty provider is accepted precisely when it is a member of the
accumulated allow list whenever one is present and it matches every
accumulated pattern; a successful policy step with an empty
`selected_provider` leaves the previously selected provider unchanged, and
one with a non-empty `selected_provider` ends with that provider selected
and validated against the accumulated constraints — so the provider
returned by a successful evaluation is the one set by the last applied
decision that set one, or the initial empty string. -/
theorem provider_binding (re : String → String → Bool) :
    (∀ c provider, c.serviceProviderConstraints = none →
      ValidateServiceProvider re c provider = .ok ()) ∧
    (∀ c, ValidateServiceProvider re c "" = .ok ()) ∧
    (∀ c sp provider, c.serviceProviderConstraints = some sp → provider ≠ "" →
      (ValidateServiceProvider re c provider = .ok () ↔
        ((sp.allowList ≠ [] → provider ∈ sp.allowList) ∧
          ∀ pat ∈ sp.patterns, re pat provider = true))) ∧
    (∀ oracle P s p c d s' p' c', oracle P (buildOpaInput c s p) = .ok (some d) →
      evaluatePolicy re oracle P s p c = .ok (s', p', c') →
        (d.selectedProvider = "" → p' = p) ∧
        (d.selectedProvider ≠ "" → p' = d.selectedProvider ∧
          ValidateServiceProvider re c' d.selectedProvider = .ok ())) ∧
    (∀ oracle P s p c s' p' c', oracle P (buildOpaInput c s p) = .ok none →
      evaluatePolicy re oracle P s p c = .ok (s', p', c') → p' = p) := by
  refine ⟨?_, ?_, ?_, ?_, ?_⟩
  · intro c provider h
    rw [ValidateServiceProvider, h]
  · intro c
    rw [ValidateServiceProvider]
    rcases c.serviceProviderConstraints with _ | sp
    · rfl
    · rfl
  · intro c sp provider hsp hne
    rw [ValidateServiceProvider, hsp]
    show (if provider = "" then Except.ok ()
          else if (!sp.allowList.isEmpty && !sp.allowList.contains provider) = true then
            Except.error ("provider " ++ provider ++
              " is not in the allowed list, constrained by policy " ++ sp.setBy)
          else
            match List.find? (fun pattern => !re pattern provider) sp.patterns with
            | some pattern => Except.error ("provider " ++ provider ++
                " does not match required pattern " ++ pattern)
            | none => Except.ok ()) = Except.ok () ↔ _
    rw [if_neg hne]
    constructor
    · intro hok
      split at hok
      · rename_i hcon
        cases hok
      · rename_i hcon
        rw [Bool.not_eq_true, Bool.and_eq_false_iff] at hcon
        constructor
        · intro hal
          rcases hcon with hcon | hcon
          · rw [Bool.not_eq_false'] at hcon
            exact absurd (List.isEmpty_iff.mp hcon) hal
          · rw [Bool.not_eq_false'] at hcon
            simpa using hcon
        · intro pat hpat
          split at hok
          · cases hok
          · rename_i hfind
            have := List.find?_eq_none.mp hfind pat hpat
            simpa using this
    · rintro ⟨hal, hpat⟩
      have hcon : ¬(!sp.allowList.isEmpty && !sp.allowList.contains provider) = true := by
        rcases hempty : sp.allowList.isEmpty with _ | _
        · have hmem := hal (by
            intro hc
            rw [hc] at hempty
            simp at hempty)
          simp only [Bool.not_eq_true, Bool.not_false, Bool.true_and, Bool.not_eq_false']
          simpa using hmem
        · simp [hempty]
      rw [if_neg hcon]
      have hfind : sp.patterns.find? (fun pattern => !re pattern provider) = none := by
        rw [List.find?_eq_none]
        intro pat hp
        simp [hpat pat hp]
      rw [hfind]
  · intro oracle P s p c d s' p' c' hor hok
    rw [evaluatePolicy, hor] at hok
    split at hok
    · rename_i heq
      cases heq
    · rename_i heq
      simp at heq
    · rename_i dec heq
      injection heq with heq1
      injection heq1 with heq2
      subst heq2
      split at hok
      · cases hok
      · split at hok
        · cases hok
        · rename_i c1 hc1
          split at hok
          · cases hok
          · rename_i c2 hc2
            split at hok
            · cases hok
            · rename_i newSpec hns
              by_cases hprov : d.selectedProvider = ""
              · rw [if_pos hprov] at hok
                cases hok
                exact ⟨fun _ => rfl, fun hne => absurd hprov hne⟩
              · rw [if_neg hprov] at hok
                split at hok
                · cases hok
                · rename_i u hval
                  cases hok
                  refine ⟨fun hc => absurd hc hprov, fun _ => ⟨rfl, ?_⟩⟩
                  cases u
                  exact hval
  · intro oracle P s p c s' p' c' hor hok
    rw [evaluatePolicy, hor] at hok
    have hok2 : (Except.ok (s, p, c) :
        Except EvalError (JObj × String × ConstraintContext)) = .ok (s', p', c') := hok
    cases hok2
    rfl

/-- Witness for C8 at a concrete input: with an accumulated allow list, the
provider aws is accepted exactly when listed and matching, and a decision
selecting aws ends the step with aws selected. -/
theorem provider_binding_witness :
    ((⟨[], [], some ⟨["aws", "gcp"], [], "p1"⟩⟩ : ConstraintContext).serviceProviderConstraints =
      some ⟨["aws", "gcp"], [], "p1"⟩) ∧
    (ValidateServiceProvider reAll ⟨[], [], some ⟨["aws", "gcp"], [], "p1"⟩⟩ "aws" = .ok () ↔
      ((["aws", "gcp"] ≠ ([] : List String) → "aws" ∈ ["aws", "gcp"]) ∧
        ∀ pat ∈ ([] : List String), reAll pat "aws" = true)) :=
  ⟨rfl, ((provider_binding reAll).2.2.1 ⟨[], [], some ⟨["aws", "gcp"], [], "p1"⟩⟩
    ⟨["aws", "gcp"], [], "p1"⟩ "aws" rfl (by decide))⟩

theorem intersectAnySlices_self (b : List Json) : intersectAnySlices b b = b :=
  List.filter_eq_self.mpr
    (fun x hx => List.any_eq_true.mpr ⟨x, hx, jsonValuesEqual_refl x⟩)

theorem intersectAnySlices_stable (a b : List Json) :
    intersectAnySlices (intersectAnySlices a b) b = intersectAnySlices a b :=
  List.filter_eq_self.mpr (fun _ hx => (List.mem_filter.mp hx).2)

theorem alookup_of_mem_nodup {α : Type} :
    ∀ {l : List (String × α)} {k : String} {v : α},
    KeysNodup l → (k, v) ∈ l → alookup l k = some v := by
  intro l
  induction l with
  | nil =>
    intro k v _ hm
    exact absurd hm (List.not_mem_nil _)
  | cons hd tl ih =>
    obtain ⟨k0, v0⟩ := hd
    intro k v hnd hm
    unfold KeysNodup at hnd
    rw [List.map_cons, List.nodup_cons] at hnd
    rcases List.mem_cons.mp hm with heq | hm2
    · injection heq with hA hB
      subst hA
      subst hB
      simp [alookup]
    · rw [alookup]
      by_cases hk : k0 = k
      · exfalso
        apply hnd.1
        rw [hk]
        exact List.mem_map.mpr ⟨(k, v), hm2, rfl⟩
      · rw [if_neg hk]
        exact ih hnd.2 hm2

theorem mergeKind_eq_pattern {kw : String} (h : mergeKind kw = .patternKw) :
    kw = "pattern" := by
  rw [mergeKind] at h
  split_ifs at h
  assumption

theorem selfCondK_diag {kw : String} {v : Json}
    (henum : ∀ xs, v = Json.arr xs → kw = "enum" → xs ≠ []) :
    SelfCondK (mergeKind kw) v (some v) := by
  rcases hk : mergeKind kw with _ | _ | _ | _ | _ | _ | _
  · show jsonValuesEqual v v = true
    exact jsonValuesEqual_refl v
  · rcases v with _ | b | q | s | xs | kvs
    · trivial
    · trivial
    · trivial
    · trivial
    · show intersectAnySlices xs xs = xs ∧ xs ≠ []
      exact ⟨intersectAnySlices_self xs, henum xs rfl (mergeKind_eq_enum hk)⟩
    · trivial
  · rcases v with _ | b | q | s | xs | kvs
    · trivial
    · trivial
    · show q = q
      rfl
    · trivial
    · trivial
    · trivial
  · rcases v with _ | b | q | s | xs | kvs
    · trivial
    · trivial
    · show q = q
      rfl
    · trivial
    · trivial
    · trivial
  · rcases v with _ | b | q | s | xs | kvs
    · trivial
    · trivial
    · trivial
    · show s = s
      rfl
    · trivial
    · trivial
  · rcases v with _ | b | q | s | xs | kvs
    · trivial
    · trivial
    · show q = 0 ∨ q = q
      exact Or.inr rfl
    · trivial
    · trivial
    · trivial
  · show v = v
    rfl

theorem mergeKeyword_of_selfCondK {o : JObj} {kw : String} {v : Json}
    (h : SelfCondK (mergeKind kw) v (alookup o kw)) (fp pid : String) :
    mergeKeyword o fp pid kw v = .ok o := by
  rcases halo : alookup o kw with _ | ex
  · rcases hk : mergeKind kw with _ | _ | _ | _ | _ | _ | _ <;>
      (try rw [halo] at h) <;> (try rw [hk] at h) <;> exact h.elim
  · rw [mergeKeyword, halo]
    try rw [halo] at h
    rcases hk : mergeKind kw with _ | _ | _ | _ | _ | _ | _ <;> rw [hk] at h
    · have h2 : jsonValuesEqual ex v = true := h
      simp [h2]
    · rcases ex with _ | b | q | s | ea | kvs <;>
        rcases v with _ | b2 | q2 | s2 | nb | kvs2 <;>
        simp [toSlice]
      have h2 : intersectAnySlices ea nb = ea ∧ ea ≠ [] := h
      have hemp : (intersectAnySlices ea nb).isEmpty = false := by
        rw [h2.1]
        rcases hea : ea with _ | ⟨e0, es⟩
        · exact absurd hea h2.2
        · rfl
      simp [hemp, h2.1, h2.2, ainsert_self halo]
    · rcases ex with _ | b | q | s | ea | kvs <;>
        rcases v with _ | b2 | q2 | s2 | nb | kvs2 <;>
        simp [toFloat64]
      have h2 : q = q2 := h
      subst h2
      simp [lt_irrefl, max_self, ainsert_self halo]
    · rcases ex with _ | b | q | s | ea | kvs <;>
        rcases v with _ | b2 | q2 | s2 | nb | kvs2 <;>
        simp [toFloat64]
      have h2 : q = q2 := h
      subst h2
      simp [lt_irrefl, min_self, ainsert_self halo]
    · rcases ex with _ | b | q | s | ea | kvs <;>
        rcases v with _ | b2 | q2 | s2 | nb | kvs2 <;>
        simp
      have h2 : s = s2 := h
      simp [h2]
    · rcases ex with _ | b | q | s | ea | kvs <;>
        rcases v with _ | b2 | q2 | s2 | nb | kvs2 <;>
        simp [toFloat64]
      have h2 : q = 0 ∨ q2 = q := h
      rcases h2 with h2 | h2
      · simp [h2]
      · subst h2
        by_cases hz : q2 = 0
        · simp [hz]
        · simp [hz, ratMulDvd_self, ainsert_self halo]
    · have h2 : ex = v := h
      subst h2
      show Except.ok (ainsert kw ex o) = Except.ok o
      rw [ainsert_self halo]

theorem mergeKeywords_of_selfCondK {M : JObj} :
    ∀ (ns : JObj),
    (∀ kw v, (kw, v) ∈ ns → SelfCondK (mergeKind kw) v (alookup M kw)) →
    ∀ fp pid, mergeKeywords M ns fp pid = .ok M
  | [], _, _, _ => rfl
  | (kw, v) :: rest, h, fp, pid => by
    show (match mergeKeyword M fp pid kw v with
          | .error e => Except.error e
          | .ok merged => mergeKeywords merged rest fp pid) = .ok M
    rw [mergeKeyword_of_selfCondK (h kw v (List.mem_cons_self _ _)) fp pid]
    exact mergeKeywords_of_selfCondK rest
      (fun kw2 v2 hm => h kw2 v2 (List.mem_cons_of_mem _ hm)) fp pid

theorem mergeKeyword_absorb_step {e e1 : JObj} {fp pid kw : String} {v : Json}
    (henum : ∀ xs, v = Json.arr xs → kw = "enum" → xs ≠ [])
    (hpat : kw = "pattern" → ∀ s p0, v = Json.str s →
      alookup e "pattern" = some (Json.str p0) → p0 = s)
    (hok : mergeKeyword e fp pid kw v = .ok e1) :
    (∀ k, k ≠ kw → alookup e1 k = alookup e k) ∧
    SelfCondK (mergeKind kw) v (alookup e1 kw) := by
  rcases halk : alookup e kw with _ | ex
  · rw [mergeKeyword, halk] at hok
    cases hok
    refine ⟨fun k hk => alookup_ainsert_ne e v (Ne.symm hk), ?_⟩
    rw [alookup_ainsert_self]
    exact selfCondK_diag henum
  · rw [mergeKeyword, halk] at hok
    rcases hknd : mergeKind kw with _ | _ | _ | _ | _ | _ | _ <;>
      (try rw [hknd] at hok)
    -- const
    · by_cases hc : jsonValuesEqual ex v = true
      · simp [hc] at hok
        subst hok
        refine ⟨fun k _ => rfl, ?_⟩
        rw [halk]
        exact hc
      · simp [Bool.not_eq_true] at hc
        simp [hc] at hok
    -- enum
    · rcases ex with _ | b | q | s | ea | kvs <;>
        rcases v with _ | b2 | q2 | s2 | nb | kvs2 <;>
        simp [toSlice] at hok <;>
        try (subst hok; exact ⟨fun k _ => rfl, by rw [halk]; trivial⟩)
      rcases hemp : (intersectAnySlices ea nb).isEmpty with _ | _
      · simp [hemp] at hok
        subst hok
        refine ⟨fun k hk => alookup_ainsert_ne e _ (Ne.symm hk), ?_⟩
        rw [alookup_ainsert_self]
        show intersectAnySlices (intersectAnySlices ea nb) nb = intersectAnySlices ea nb ∧
          intersectAnySlices ea nb ≠ []
        refine ⟨intersectAnySlices_stable ea nb, ?_⟩
        intro hnil
        rw [hnil] at hemp
        cases hemp
      · simp [hemp] at hok
    -- min
    · rcases ex with _ | b | q | s | ea | kvs <;>
        rcases v with _ | b2 | q2 | s2 | nb | kvs2 <;>
        simp [toFloat64] at hok <;>
        try (subst hok; exact ⟨fun k _ => rfl, by rw [halk]; trivial⟩)
      by_cases hlt : q2 < q
      · simp [hlt] at hok
      · simp [hlt] at hok
        subst hok
        refine ⟨fun k hk => alookup_ainsert_ne e _ (Ne.symm hk), ?_⟩
        rw [alookup_ainsert_self]
        show max q q2 = q2
        exact max_eq_right (not_lt.mp hlt)
    -- max
    · rcases ex with _ | b | q | s | ea | kvs <;>
        rcases v with _ | b2 | q2 | s2 | nb | kvs2 <;>
        simp [toFloat64] at hok <;>
        try (subst hok; exact ⟨fun k _ => rfl, by rw [halk]; trivial⟩)
      by_cases hlt : q < q2
      · simp [hlt] at hok
      · simp [hlt] at hok
        subst hok
        refine ⟨fun k hk => alookup_ainsert_ne e _ (Ne.symm hk), ?_⟩
        rw [alookup_ainsert_self]
        show min q q2 = q2
        exact min_eq_right (not_lt.mp hlt)
    -- pattern
    · have hkw := mergeKind_eq_pattern hknd
      subst hkw
      rcases ex with _ | b | q | s | ea | kvs <;>
        rcases v with _ | b2 | q2 | s2 | nb | kvs2 <;>
        simp at hok <;>
        try (subst hok; exact ⟨fun k _ => rfl, by rw [halk]; trivial⟩)
      have hps : s = s2 := hpat rfl s2 s rfl halk
      simp [hps] at hok
      subst hok
      refine ⟨fun k _ => rfl, ?_⟩
      rw [halk]
      exact hps
    -- multipleOf
    · rcases ex with _ | b | q | s | ea | kvs <;>
        rcases v with _ | b2 | q2 | s2 | nb | kvs2 <;>
        simp [toFloat64] at hok <;>
        try (subst hok; exact ⟨fun k _ => rfl, by rw [halk]; trivial⟩)
      by_cases hz : q = 0
      · simp [hz] at hok
        subst hok
        refine ⟨fun k _ => rfl, ?_⟩
        rw [halk]
        exact Or.inl hz
      · simp [hz] at hok
        rcases hdvd : ratMulDvd q2 q with _ | _
        · simp [hdvd] at hok
        · simp [hdvd] at hok
          subst hok
          refine ⟨fun k hk => alookup_ainsert_ne e _ (Ne.symm hk), ?_⟩
          rw [alookup_ainsert_self]
          exact Or.inr rfl
    -- other
    · simp at hok
      subst hok
      refine ⟨fun k hk => alookup_ainsert_ne e _ (Ne.symm hk), ?_⟩
      rw [alookup_ainsert_self]
      exact rfl

theorem mergeKeywords_absorb {fp pid : String} :
    ∀ (ns : JObj), ∀ (e M : JObj),
    KeysNodup ns →
    (∀ xs, ("enum", Json.arr xs) ∈ ns → xs ≠ []) →
    (∀ s p0, ("pattern", Json.str s) ∈ ns →
      alookup e "pattern" = some (Json.str p0) → p0 = s) →
    mergeKeywords e ns fp pid = .ok M →
    (∀ k, ¬ k ∈ ns.map Prod.fst → alookup M k = alookup e k) ∧
    (∀ kw v, (kw, v) ∈ ns → SelfCondK (mergeKind kw) v (alookup M kw)) := by
  intro ns
  induction ns with
  | nil =>
    intro e M _ _ _ hok
    have hok2 : (Except.ok e : Except ConstraintConflictError JObj) = .ok M := hok
    cases hok2
    exact ⟨fun k _ => rfl, fun kw v hm => absurd hm (List.not_mem_nil _)⟩
  | cons hd rest ih =>
    obtain ⟨kw, v⟩ := hd
    intro e M hnd henum hpat hok
    unfold KeysNodup at hnd
    rw [List.map_cons, List.nodup_cons] at hnd
    rw [mergeKeywords] at hok
    rcases h1 : mergeKeyword e fp pid kw v with er | e1
    · rw [h1] at hok
      cases hok
    · rw [h1] at hok
      have hok2 : mergeKeywords e1 rest fp pid = .ok M := hok
      have henumS : ∀ xs, v = Json.arr xs → kw = "enum" → xs ≠ [] := by
        intro xs hxs hkw
        refine henum xs ?_
        rw [← hkw, ← hxs]
        exact List.mem_cons_self _ _
      have hpatS : kw = "pattern" → ∀ s p0, v = Json.str s →
          alookup e "pattern" = some (Json.str p0) → p0 = s := by
        intro hkw s p0 hs hl
        refine hpat s p0 ?_ hl
        rw [← hkw, ← hs]
        exact List.mem_cons_self _ _
      obtain ⟨ha, hb⟩ := mergeKeyword_absorb_step henumS hpatS h1
      have henum2 : ∀ xs, ("enum", Json.arr xs) ∈ rest → xs ≠ [] :=
        fun xs hm => henum xs (List.mem_cons_of_mem _ hm)
      have hpat2 : ∀ s p0, ("pattern", Json.str s) ∈ rest →
          alookup e1 "pattern" = some (Json.str p0) → p0 = s := by
        intro s p0 hm hl
        by_cases hkw : kw = "pattern"
        · exfalso
          apply hnd.1
          rw [hkw]
          exact List.mem_map.mpr ⟨("pattern", Json.str s), hm, rfl⟩
        · rw [ha "pattern" (fun hh => hkw hh.symm)] at hl
          exact hpat s p0 (List.mem_cons_of_mem _ hm) hl
      obtain ⟨hu, hsc⟩ := ih e1 M hnd.2 henum2 hpat2 hok2
      constructor
      · intro k hk
        rw [List.map_cons, List.mem_cons] at hk
        push_neg at hk
        rw [hu k hk.2, ha k hk.1]
      · intro kw2 v2 hm
        rcases List.mem_cons.mp hm with heq | hm2
        · injection heq with hA hB
          subst hA
          subst hB
          rw [hu kw2 hnd.1]
          exact hb
        · exact hsc kw2 v2 hm2

theorem mergeConstraintsStep_absorb {c cA : ConstraintContext} {fp pid : String} {sv : Json}
    (hns : ∀ ns, sv = Json.obj ns → KeysNodup ns)
    (henum : ∀ ns xs, sv = Json.obj ns → ("enum", Json.arr xs) ∈ ns → xs ≠ [])
    (hpat : ∀ ns s e p0, sv = Json.obj ns → ("pattern", Json.str s) ∈ ns →
      alookup c.fieldConstraints fp = some e →
      alookup e "pattern" = some (Json.str p0) → p0 = s)
    (hok : mergeConstraintsStep c fp sv pid = .ok cA) :
    (∀ k, k ≠ fp → alookup cA.fieldConstraints k = alookup c.fieldConstraints k) ∧
    MergedOk cA.fieldConstraints fp sv := by
  rcases sv with _ | b | q | s | xs | ns
  · have hok2 : (Except.ok c : Except ConstraintConflictError ConstraintContext) = .ok cA := hok
    cases hok2
    exact ⟨fun k _ => rfl, fun ns h => by cases h⟩
  · have hok2 : (Except.ok c : Except ConstraintConflictError ConstraintContext) = .ok cA := hok
    cases hok2
    exact ⟨fun k _ => rfl, fun ns h => by cases h⟩
  · have hok2 : (Except.ok c : Except ConstraintConflictError ConstraintContext) = .ok cA := hok
    cases hok2
    exact ⟨fun k _ => rfl, fun ns h => by cases h⟩
  · have hok2 : (Except.ok c : Except ConstraintConflictError ConstraintContext) = .ok cA := hok
    cases hok2
    exact ⟨fun k _ => rfl, fun ns h => by cases h⟩
  · have hok2 : (Except.ok c : Except ConstraintConflictError ConstraintContext) = .ok cA := hok
    cases hok2
    exact ⟨fun k _ => rfl, fun ns h => by cases h⟩
  · rw [mergeConstraintsStep] at hok
    rcases halk : alookup c.fieldConstraints fp with _ | ex
    · rw [halk] at hok
      have hok2 : (Except.ok { c with
          fieldConstraints := ainsert fp ns c.fieldConstraints,
          setBy := ainsert fp pid c.setBy } :
          Except ConstraintConflictError ConstraintContext) = .ok cA := hok
      cases hok2
      refine ⟨?_, ?_⟩
      · intro k hk
        show alookup (ainsert fp ns c.fieldConstraints) k = _
        exact alookup_ainsert_ne _ _ (Ne.symm hk)
      · intro ns2 h2
        injection h2 with h3
        subst h3
        refine ⟨ns, ?_, ?_⟩
        · show alookup (ainsert fp ns c.fieldConstraints) fp = some ns
          exact alookup_ainsert_self _ _ _
        · intro fp2 pid2
          refine mergeKeywords_of_selfCondK ns ?_ fp2 pid2
          intro kw v hm
          rw [alookup_of_mem_nodup (hns ns rfl) hm]
          refine selfCondK_diag ?_
          intro xs hxs hkw
          refine henum ns xs rfl ?_
          rw [← hkw, ← hxs]
          exact hm
    · rw [halk] at hok
      have hok3 : (match mergeSchemaKeywords ex ns fp ((alookup c.setBy fp).getD "") with
          | Except.error e2 => (Except.error e2 : Except ConstraintConflictError ConstraintContext)
          | Except.ok merged => Except.ok { c with
              fieldConstraints := ainsert fp merged c.fieldConstraints }) = .ok cA := hok
      rcases hmk : mergeSchemaKeywords ex ns fp ((alookup c.setBy fp).getD "") with er | M
      · rw [hmk] at hok3
        cases hok3
      · rw [hmk] at hok3
        have hok2 : (Except.ok { c with
            fieldConstraints := ainsert fp M c.fieldConstraints } :
            Except ConstraintConflictError ConstraintContext) = .ok cA := hok3
        cases hok2
        obtain ⟨hu, hsc⟩ := mergeKeywords_absorb ns ex M (hns ns rfl)
          (fun xs hm => henum ns xs rfl hm)
          (fun s p0 hm hl => hpat ns s ex p0 rfl hm halk hl)
          hmk
        refine ⟨?_, ?_⟩
        · intro k hk
          show alookup (ainsert fp M c.fieldConstraints) k = _
          exact alookup_ainsert_ne _ _ (Ne.symm hk)
        · intro ns2 h2
          injection h2 with h3
          subst h3
          refine ⟨M, ?_, ?_⟩
          · show alookup (ainsert fp M c.fieldConstraints) fp = some M
            exact alookup_ainsert_self _ _ _
          · intro fp2 pid2
            exact mergeKeywords_of_selfCondK ns (fun kw v hm => hsc kw v hm) fp2 pid2

theorem mergeConstraintsStep_of_mergedOk {c1 : ConstraintContext} {fp : String} {sv : Json}
    (h : MergedOk c1.fieldConstraints fp sv) (pid2 : String) :
    mergeConstraintsStep c1 fp sv pid2 = .ok c1 := by
  rcases sv with _ | b | q | s | xs | ns
  · rfl
  · rfl
  · rfl
  · rfl
  · rfl
  · obtain ⟨F, hF, habs⟩ := h ns rfl
    rw [mergeConstraintsStep, hF]
    show (match mergeSchemaKeywords F ns fp ((alookup c1.setBy fp).getD "") with
        | Except.error e2 => (Except.error e2 : Except ConstraintConflictError ConstraintContext)
        | Except.ok merged => Except.ok { c1 with
            fieldConstraints := ainsert fp merged c1.fieldConstraints }) = .ok c1
    rw [show mergeSchemaKeywords F ns fp ((alookup c1.setBy fp).getD "") = .ok F from
      habs fp ((alookup c1.setBy fp).getD "")]
    show (Except.ok { c1 with fieldConstraints := ainsert fp F c1.fieldConstraints } :
        Except ConstraintConflictError ConstraintContext) = .ok c1
    rw [ainsert_self hF]

theorem mergeConstraintsLoop_of_mergedOk {c1 : ConstraintContext} {pid2 : String} :
    ∀ m : List (String × Json),
    (∀ fp sv, (fp, sv) ∈ m → MergedOk c1.fieldConstraints fp sv) →
    mergeConstraintsLoop c1 m pid2 = .ok c1
  | [], _ => rfl
  | (fp, sv) :: rest, h => by
    rw [mergeConstraintsLoop]
    rw [mergeConstraintsStep_of_mergedOk (h fp sv (List.mem_cons_self _ _)) pid2]
    exact mergeConstraintsLoop_of_mergedOk rest
      (fun fp2 sv2 hm => h fp2 sv2 (List.mem_cons_of_mem _ hm))

theorem mergeConstraintsLoop_absorb {pid : String} :
    ∀ (m : List (String × Json)) (c c1 : ConstraintContext),
    KeysNodup m →
    (∀ fp ns, (fp, Json.obj ns) ∈ m → KeysNodup ns) →
    (∀ fp ns xs, (fp, Json.obj ns) ∈ m → ("enum", Json.arr xs) ∈ ns → xs ≠ []) →
    (∀ fp ns s e p0, (fp, Json.obj ns) ∈ m → ("pattern", Json.str s) ∈ ns →
      alookup c.fieldConstraints fp = some e →
      alookup e "pattern" = some (Json.str p0) → p0 = s) →
    mergeConstraintsLoop c m pid = .ok c1 →
    (∀ k, ¬ k ∈ m.map Prod.fst →
      alookup c1.fieldConstraints k = alookup c.fieldConstraints k) ∧
    (∀ fp sv, (fp, sv) ∈ m → MergedOk c1.fieldConstraints fp sv) := by
  intro m
  induction m with
  | nil =>
    intro c c1 _ _ _ _ hok
    have hok2 : (Except.ok c : Except ConstraintConflictError ConstraintContext) = .ok c1 := hok
    cases hok2
    exact ⟨fun k _ => rfl, fun fp sv hm => absurd hm (List.not_mem_nil _)⟩
  | cons hd rest ih =>
    obtain ⟨fp, sv⟩ := hd
    intro c c1 hnd hns henum hpat hok
    unfold KeysNodup at hnd
    rw [List.map_cons, List.nodup_cons] at hnd
    rw [mergeConstraintsLoop] at hok
    rcases h1 : mergeConstraintsStep c fp sv pid with er | cA
    · rw [h1] at hok
      cases hok
    · rw [h1] at hok
      have hok2 : mergeConstraintsLoop cA rest pid = .ok c1 := hok
      obtain ⟨ha, hb⟩ := mergeConstraintsStep_absorb
        (fun ns h => hns fp ns (by rw [← h]; exact List.mem_cons_self _ _))
        (fun ns xs h hm => henum fp ns xs (by rw [← h]; exact List.mem_cons_self _ _) hm)
        (fun ns s e p0 h hm hl1 hl2 =>
          hpat fp ns s e p0 (by rw [← h]; exact List.mem_cons_self _ _) hm hl1 hl2)
        h1
      obtain ⟨hu, hmo⟩ := ih cA c1 hnd.2
        (fun fp2 ns hm => hns fp2 ns (List.mem_cons_of_mem _ hm))
        (fun fp2 ns xs hm => henum fp2 ns xs (List.mem_cons_of_mem _ hm))
        (fun fp2 ns s e p0 hm hpm hl1 hl2 => by
          by_cases hfp : fp2 = fp
          · exfalso
            apply hnd.1
            rw [← hfp]
            exact List.mem_map.mpr ⟨(fp2, Json.obj ns), hm, rfl⟩
          · refine hpat fp2 ns s e p0 (List.mem_cons_of_mem _ hm) hpm ?_ hl2
            rw [← ha fp2 hfp]
            exact hl1)
        hok2
      constructor
      · intro k hk
        rw [List.map_cons, List.mem_cons] at hk
        push_neg at hk
        rw [hu k hk.2, ha k hk.1]
      · intro fp2 sv2 hm
        rcases List.mem_cons.mp hm with heq | hm2
        · injection heq with hA hB
          subst hA
          subst hB
          intro ns h2
          obtain ⟨F, hF, habs⟩ := hb ns h2
          refine ⟨F, ?_, habs⟩
          rw [hu fp2 hnd.1]
          exact hF
        · exact hmo fp2 sv2 hm2

/-- C10 (amended): merging the same constraints map a second time is the
identity — for every constraint context and constraints map m whose keys
and per-fragment keys are duplicate-free, whose list-valued enum entries
are non-empty, and whose string-valued pattern entries do not differ from
a string pattern already stored for their path, if merging m succeeds then
immediately re-merging m (with any policy id) also succeeds and returns
the context unchanged — in particular field_constraints and set_by are
unchanged.  (As stated the claim fails, e.g. for a fragment whose enum is
the empty list: the first merge stores it, the second aborts with a
ConstraintConflict.) -/
theorem mergeConstraints_idempotent (c c1 : ConstraintContext)
    (m : List (String × Json)) (pid pid2 : String)
    (hm : KeysNodup m)
    (hns : ∀ fp ns, (fp, Json.obj ns) ∈ m → KeysNodup ns)
    (henum : ∀ fp ns xs, (fp, Json.obj ns) ∈ m → ("enum", Json.arr xs) ∈ ns → xs ≠ [])
    (hpat : ∀ fp ns s e p0, (fp, Json.obj ns) ∈ m → ("pattern", Json.str s) ∈ ns →
      alookup c.fieldConstraints fp = some e →
      alookup e "pattern" = some (Json.str p0) → p0 = s)
    (h : MergeConstraints c m pid = .ok c1) :
    MergeConstraints c1 m pid2 = .ok c1 := by
  obtain ⟨-, hmo⟩ := mergeConstraintsLoop_absorb m c c1 hm hns henum hpat h
  exact mergeConstraintsLoop_of_mergedOk m hmo

/-- Counterexample to C10 as stated: a fragment whose enum list is empty
merges successfully into a fresh context (a new field path is stored with
no check), but re-merging the identical map aborts with a
ConstraintConflict on the same field, set by the first policy: the empty
enum intersected with itself is empty. -/
theorem mergeConstraints_idempotent_counterexample :
    MergeConstraints NewConstraintContext [("f", Json.obj [("enum", Json.arr [])])] "p1" =
      .ok ⟨[("f", [("enum", Json.arr [])])], [("f", "p1")], none⟩ ∧
    ∃ e, MergeConstraints ⟨[("f", [("enum", Json.arr [])])], [("f", "p1")], none⟩
        [("f", Json.obj [("enum", Json.arr [])])] "p2" = .error e ∧
      e.fieldPath = "f" ∧ e.setByPolicy = "p1" :=
  ⟨rfl, ⟨⟨"f", "p1", "enum constraint intersection is empty for field f"⟩, rfl, rfl, rfl⟩⟩

/-- Witness for C10 at a concrete input: a minimum fragment on a fresh
path merges, and re-merging the same map returns the context unchanged. -/
theorem mergeConstraints_idempotent_witness :
    MergeConstraints NewConstraintContext [("f", Json.obj [("minimum", Json.num 1)])] "p1" =
      .ok ⟨[("f", [("minimum", Json.num 1)])], [("f", "p1")], none⟩ ∧
    MergeConstraints ⟨[("f", [("minimum", Json.num 1)])], [("f", "p1")], none⟩
      [("f", Json.obj [("minimum", Json.num 1)])] "p2" =
      .ok ⟨[("f", [("minimum", Json.num 1)])], [("f", "p1")], none⟩ :=
  ⟨rfl, mergeConstraints_idempotent NewConstraintContext
    ⟨[("f", [("minimum", Json.num 1)])], [("f", "p1")], none⟩
    [("f", Json.obj [("minimum", Json.num 1)])] "p1" "p2"
    (by unfold KeysNodup; decide)
    (by
      intro fp ns h
      rw [List.mem_singleton] at h
      injection h with hA hB
      injection hB with hC
      subst hC
      unfold KeysNodup
      decide)
    (by
      intro fp ns xs h hm
      rw [List.mem_singleton] at h
      injection h with hA hB
      injection hB with hC
      subst hC
      rw [List.mem_singleton] at hm
      injection hm with hD hE
      exact absurd hD (by decide))
    (by
      intro fp ns s e p0 h hm hl1 hl2
      rw [List.mem_singleton] at h
      injection h with hA hB
      injection hB with hC
      subst hC
      rw [List.mem_singleton] at hm
      injection hm with hD hE
      exact absurd hD (by decide))
    rfl⟩
